import Mathlib

/-!
Verification development for the ao3scraper coordinator.

Part 1 embeds `rangeset.py` (class `RangeSet`): the ranges field is a
`List (ℤ × ℤ)` of closed intervals, and every method is translated
directly, including the binary searches.  Python integers are modelled
as `ℤ`.

Part 2 embeds the `WorkManager` of `server.py`: the in-memory sets are
`Finset ℤ`, the dispatch queue is a `List ℤ`, and the durable appends to
`results.jsonl` / `public.txt` / `private.txt` are recorded in an
append-only journal of `FileWrite` events in write order.  Append/fsync
outcomes are an explicit oracle (`Bool` per write), since the embedding
cannot perform I/O.
-/

/-- Python `range(a, b)` over integers: the ascending list `a, a+1, …, b-1`. -/
def intRange (a b : ℤ) : List ℤ :=
  (List.range (b - a).toNat).map (fun (i : ℕ) => a + (i : ℤ))

namespace RangeSet

/-- The `ranges` field of a Python `RangeSet`: a list of closed intervals. -/
abbrev Ranges := List (ℤ × ℤ)

/-- The binary-search loop shared by `RangeSet.add` and `RangeSet.filter_range`:
`while left < right: mid = (left+right)//2; if ranges[mid][1] < value: left = mid+1 else right = mid`.
The loop shrinks `right - left` every iteration, so any `fuel ≥ right - left`
makes the recursion structural without changing the computed value. -/
def bisectHiGo (ranges : Ranges) (value : ℤ) : ℕ → ℕ → ℕ → ℕ
  | 0, left, _ => left
  | fuel + 1, left, right =>
    if left < right then
      if (ranges.getD ((left + right) / 2) (0, 0)).2 < value then
        bisectHiGo ranges value fuel ((left + right) / 2 + 1) right
      else
        bisectHiGo ranges value fuel left ((left + right) / 2)
    else
      left

/-- The binary search of `add` and `filter_range` over the whole list. -/
def bisectHi (ranges : Ranges) (value : ℤ) : ℕ :=
  bisectHiGo ranges value ranges.length 0 ranges.length

/-- `RangeSet.__contains__`: three-way binary search (fuel as in `bisectHiGo`). -/
def containsGo (ranges : Ranges) (value : ℤ) : ℕ → ℕ → ℕ → Bool
  | 0, _, _ => false
  | fuel + 1, left, right =>
    if left < right then
      let p := ranges.getD ((left + right) / 2) (0, 0)
      if value < p.1 then
        containsGo ranges value fuel left ((left + right) / 2)
      else if value > p.2 then
        containsGo ranges value fuel ((left + right) / 2 + 1) right
      else
        true
    else
      false

/-- `value in rs` (the `__contains__` method). -/
def contains (ranges : Ranges) (value : ℤ) : Bool :=
  containsGo ranges value ranges.length 0 ranges.length

/-- Linear membership: `value` lies in some interval of the list.  Used as the
set denotation of a range list; proven equal to `contains` on well-formed lists. -/
def memb (ranges : Ranges) (value : ℤ) : Bool :=
  ranges.any (fun p => decide (p.1 ≤ value) && decide (value ≤ p.2))

/-- `RangeSet.add`.  List splices (`insert`, slice assignment) are rendered as
`take`/`drop` concatenations at the bisected index. -/
def add (ranges : Ranges) (value : ℤ) : Ranges :=
  if ranges.isEmpty then [(value, value)] else
  let left := bisectHi ranges value
  let cur := ranges.getD left (0, 0)
  if left < ranges.length ∧ cur.1 ≤ value ∧ value ≤ cur.2 then ranges
  else
    let prev := ranges.getD (left - 1) (0, 0)
    let canMergePrev := 0 < left ∧ prev.2 + 1 = value
    let canMergeNext := left < ranges.length ∧ cur.1 - 1 = value
    if canMergePrev ∧ canMergeNext then
      ranges.take (left - 1) ++ [(prev.1, cur.2)] ++ ranges.drop (left + 1)
    else if canMergePrev then
      ranges.take (left - 1) ++ [(prev.1, value)] ++ ranges.drop left
    else if canMergeNext then
      ranges.take left ++ [(value, cur.2)] ++ ranges.drop (left + 1)
    else
      ranges.take left ++ [(value, value)] ++ ranges.drop left

/-- `RangeSet._add_range`: append a range, merging with the last range when
adjacent or overlapping. -/
def addRange (acc : Ranges) (r : ℤ × ℤ) : Ranges :=
  match acc.getLast? with
  | none => [r]
  | some last =>
    if r.1 ≤ last.2 + 1 then
      acc.dropLast ++ [(last.1, max last.2 r.2)]
    else
      acc ++ [r]

/-- The merge loop of `RangeSet.__or__` (the `isinstance(other, RangeSet)`
branch), with the advancing indices `i`, `j` rendered as list suffixes.  One
element is consumed per iteration, so `fuel ≥ x.length + y.length` makes the
recursion structural without changing the computed value. -/
def unionGo : ℕ → Ranges → Ranges → Ranges → Ranges
  | 0, _, _, acc => acc
  | _ + 1, [], [], acc => acc
  | fuel + 1, [], y :: ys, acc => unionGo fuel [] ys (addRange acc y)
  | fuel + 1, x :: xs, [], acc => unionGo fuel xs [] (addRange acc x)
  | fuel + 1, x :: xs, y :: ys, acc =>
    if x.1 ≤ y.1 then
      unionGo fuel xs (y :: ys) (addRange acc x)
    else
      unionGo fuel (x :: xs) ys (addRange acc y)

/-- `RangeSet.__or__` on two RangeSets. -/
def union (a b : Ranges) : Ranges := unionGo (a.length + b.length) a b []

/-- The scan loop of `RangeSet.filter_range`, over the suffix of ranges from
the bisected start index; `current` is the emission cursor. -/
def filterGo : Ranges → ℤ → ℤ → List ℤ
  | [], e, current => intRange current (e + 1)
  | (rs, re) :: rest, e, current =>
    if rs > e then intRange current (e + 1)
    else
      (if current < rs then intRange current (min rs (e + 1)) else []) ++
        filterGo rest e (max current (re + 1))

/-- `RangeSet.filter_range`: the values in `[s, e]` not in the set. -/
def filter_range (ranges : Ranges) (s e : ℤ) : List ℤ :=
  filterGo (ranges.drop (bisectHi ranges s)) e s

/-- `RangeSet.discard`: binary search for the interval containing `value`, then
pop / shrink / split it; no-op when `value` is absent (fuel as in `bisectHiGo`). -/
def discardGo (ranges : Ranges) (value : ℤ) : ℕ → ℕ → ℕ → Ranges
  | 0, _, _ => ranges
  | fuel + 1, left, right =>
    if left < right then
      let mid := (left + right) / 2
      let p := ranges.getD mid (0, 0)
      if value < p.1 then
        discardGo ranges value fuel left mid
      else if value > p.2 then
        discardGo ranges value fuel (mid + 1) right
      else if p.1 = p.2 then
        ranges.take mid ++ ranges.drop (mid + 1)
      else if value = p.1 then
        ranges.take mid ++ [(p.1 + 1, p.2)] ++ ranges.drop (mid + 1)
      else if value = p.2 then
        ranges.take mid ++ [(p.1, p.2 - 1)] ++ ranges.drop (mid + 1)
      else
        ranges.take mid ++ [(p.1, value - 1), (value + 1, p.2)] ++ ranges.drop (mid + 1)
    else
      ranges

/-- `RangeSet.discard`. -/
def discard (ranges : Ranges) (value : ℤ) : Ranges :=
  discardGo ranges value ranges.length 0 ranges.length

/-- `RangeSet.pop_front`: remove and return up to `count` values from the
front.  Consuming a whole range recurses on the tail; a partial consumption
shrinks the head and stops (the Python loop then has `len(result) = count`). -/
def popFrontGo : Ranges → ℕ → List ℤ × Ranges
  | rgs, 0 => ([], rgs)
  | [], _ => ([], [])
  | (s, e) :: rest, n + 1 =>
    let size := e - s + 1
    if (n : ℤ) + 1 ≥ size then
      let r := popFrontGo rest (n + 1 - size.toNat)
      (intRange s (s + size) ++ r.1, r.2)
    else
      (intRange s (s + ((n : ℤ) + 1)), (s + ((n : ℤ) + 1), e) :: rest)

/-- `RangeSet.pop_front`. -/
def pop_front (ranges : Ranges) (count : ℕ) : List ℤ × Ranges :=
  popFrontGo ranges count

/-- The grouping loop of `RangeSet.from_values` over the sorted distinct
values: extend the current run `[start, endv]` or emit it and start a new one. -/
def groupRuns (start endv : ℤ) : List ℤ → Ranges
  | [] => [(start, endv)]
  | v :: rest =>
    if v = endv + 1 then groupRuns start v rest
    else (start, endv) :: groupRuns v v rest

/-- `RangeSet.from_values`: Python `sorted(set(values))` is the sorted list of
the distinct values, then runs of consecutive integers are grouped. -/
def from_values (values : List ℤ) : Ranges :=
  match values.dedup.insertionSort (· ≤ ·) with
  | [] => []
  | v :: rest => groupRuns v v rest

/-- Structural invariant of a `RangeSet` (spec §4.1): every interval has
`lo ≤ hi`, and consecutive intervals `(a,b)`, `(c,d)` satisfy `c > b + 1`
(sorted, non-overlapping, non-adjacent). -/
def WF (ranges : Ranges) : Prop :=
  (∀ p ∈ ranges, p.1 ≤ p.2) ∧ ranges.Pairwise (fun p q => p.2 + 1 < q.1)

instance : DecidablePred WF := fun _ => by
  unfold WF; infer_instance

/-- Prop-level set denotation of a range list. -/
def MemS (ranges : Ranges) (v : ℤ) : Prop := ∃ p ∈ ranges, p.1 ≤ v ∧ v ≤ p.2

end RangeSet


/-!
Embedding of the `WorkManager` of `server.py` and the file endpoints.

Modelling conventions:
* Python `set[int]` fields are `Finset ℤ`; the `collections.deque` is a
  `List ℤ` (head = front).
* The durable appends (`results.jsonl`, `public.txt`, `private.txt`) are
  recorded in an append-only `writes` journal, in completion order of the
  `write` + `flush` + `fsync` sequences.  Each append carries an I/O
  outcome bit: `true` = the append/fsync succeeded, `false` = it raised
  `OSError`, in which case nothing is journalled and the method raises.
* `work_data.model_dump_json()` payloads are tracked by their work id,
  which is all the server logic inspects (`int(work_data.id)`).
* Log files read at startup are abstracted line by line to their parse
  result: `some n` when `int(line)` accepts the stripped line, `none` for a
  blank or unparsable line (skipped by the source).
* Handlers run under `self.lock`, so operations are serialized; the state
  machine below is that serialization.  Iteration order of the Python set
  `new_ids` in `available_queue.extend(new_ids)` is unspecified; it is
  modelled as ascending, matching the spec and the behaviour observed for
  the dense small-integer sets that occur here.
-/

/-- `QUEUE_BUMP_SIZE` in `server.py`. -/
def QUEUE_BUMP_SIZE : ℤ := 30000

/-- `QUEUE_MIN_SIZE` in `server.py`. -/
def QUEUE_MIN_SIZE : ℕ := 5000

/-- One durable append, tagged by destination file and work id. -/
inductive FileWrite : Type
  | res : ℤ → FileWrite
  | pub : ℤ → FileWrite
  | priv : ℤ → FileWrite
deriving DecidableEq

/-- The id-range part of `Config` in `server.py`. -/
structure SrvConfig : Type where
  start_id : ℤ
  end_id : ℤ
deriving DecidableEq

/-- The mutable state of `WorkManager` plus the journal of durable appends.
(`private` is a Lean keyword, so that set is named `priv`.) -/
structure SrvState : Type where
  completed : Finset ℤ
  priv : Finset ℤ
  assigned : Finset ℤ
  available_queue : List ℤ
  last_queued_id : ℤ
  writes : List FileWrite
deriving DecidableEq

/-- `WorkManager.save_work_data`: append the JSON record to `results.jsonl`
(first write, outcome `ok1`); then, if the id is not in `completed`, append
the id to `public.txt` (second write, outcome `ok2`) and only on success
update `completed` and `assigned`.  On `OSError` the in-memory sets are left
untouched and the method raises (`false` result). -/
def save_work_data (st : SrvState) (work_id : ℤ) (ok1 ok2 : Bool) : SrvState × Bool :=
  if !ok1 then (st, false)
  else
    let st1 := { st with writes := st.writes ++ [FileWrite.res work_id] }
    if work_id ∈ st.completed then (st1, true)
    else if !ok2 then (st1, false)
    else
      ({ st1 with
          writes := st1.writes ++ [FileWrite.pub work_id],
          completed := insert work_id st.completed,
          assigned := st.assigned.erase work_id }, true)

/-- `WorkManager.mark_private`: no-op when the id is already private;
otherwise append the id to `private.txt` (outcome `ok1`) and only on success
update `priv` and `assigned`. -/
def mark_private (st : SrvState) (work_id : ℤ) (ok1 : Bool) : SrvState × Bool :=
  if work_id ∈ st.priv then (st, true)
  else if !ok1 then (st, false)
  else
    ({ st with
        writes := st.writes ++ [FileWrite.priv work_id],
        priv := insert work_id st.priv,
        assigned := st.assigned.erase work_id }, true)

/-- The dequeue loop of `WorkManager.get_work_batch`: pop an id from the
queue front, add it to `assigned`, collect it into `pending`; iterate
`min(batch_size, len(queue))` times (with the source's early break on an
empty queue). -/
def getBatchGo : List ℤ → Finset ℤ → ℕ → List ℤ × List ℤ × Finset ℤ
  | queue, assigned, 0 => ([], queue, assigned)
  | [], assigned, _ + 1 => ([], [], assigned)
  | w :: rest, assigned, n + 1 =>
    let r := getBatchGo rest (insert w assigned) n
    (w :: r.1, r.2.1, r.2.2)

/-- `WorkManager.get_work_batch`. -/
def get_work_batch (st : SrvState) (batch_size : ℕ) : SrvState × List ℤ :=
  let r := getBatchGo st.available_queue st.assigned
    (min batch_size st.available_queue.length)
  ({ st with available_queue := r.2.1, assigned := r.2.2 }, r.1)

/-- One productive iteration of `WorkManager._queue_manager`: when the queue
is below `QUEUE_MIN_SIZE` and ids remain, enumerate
`[last_queued_id + 1, min(last_queued_id + QUEUE_BUMP_SIZE, end_id)]`, drop
the ids in `completed ∪ private ∪ assigned`, push the rest onto the queue
tail and advance the cursor to the range end. -/
def refillStep (cfg : SrvConfig) (st : SrvState) : SrvState :=
  if st.available_queue.length < QUEUE_MIN_SIZE ∧ st.last_queued_id < cfg.end_id then
    let s := st.last_queued_id + 1
    let e := min (s + QUEUE_BUMP_SIZE - 1) cfg.end_id
    let new_ids := (intRange s (e + 1)).filter
      (fun v => !(decide (v ∈ st.completed) || decide (v ∈ st.priv) ||
        decide (v ∈ st.assigned)))
    { st with available_queue := st.available_queue ++ new_ids, last_queued_id := e }
  else st

/-- The scan `while self.next_id in self.completed or self.next_id in
self.private: self.next_id += 1` of `load_completed_work`, over the union of
the two sets, with fuel (the scan hits at most `|u|` members, so `|u| + 1`
fuel never runs out). -/
def scanNext (u : Finset ℤ) : ℤ → ℕ → ℤ
  | cur, 0 => cur
  | cur, fuel + 1 => if cur ∈ u then scanNext u (cur + 1) fuel else cur

/-- `WorkManager.load_completed_work` plus queue-tracking init: build
`completed`/`priv` from the parseable log lines, scan for the first id from
`start_id` not in either set, and set `last_queued_id` to one less.
`assigned` and the queue start empty; the journal of this process is empty. -/
def load_state (cfg : SrvConfig) (pub_lines priv_lines : List (Option ℤ)) : SrvState :=
  let completed := pub_lines.reduceOption.toFinset
  let privset := priv_lines.reduceOption.toFinset
  let u := completed ∪ privset
  let next_id := scanNext u cfg.start_id (u.card + 1)
  { completed := completed
    priv := privset
    assigned := ∅
    available_queue := []
    last_queued_id := next_id - 1
    writes := [] }

/-- The `/work-completed` endpoint: `save_work_data` in a `try/except` that
maps an exception to an HTTP 500 response, success to 200. -/
def submit_completed_work (st : SrvState) (work_id : ℤ) (ok1 ok2 : Bool) : SrvState × ℕ :=
  let r := save_work_data st work_id ok1 ok2
  (r.1, if r.2 then 200 else 500)

/-- The `/work-private` endpoint: `mark_private`; the raised exception
propagates to FastAPI, which answers 500. -/
def submit_private_work (st : SrvState) (work_id : ℤ) (ok1 : Bool) : SrvState × ℕ :=
  let r := mark_private st work_id ok1
  (r.1, if r.2 then 200 else 500)

/-- Run a sequence of `save_work_data` calls naming one id, given each call's
I/O outcome pair; returns the final state and the per-call success bits. -/
def runSaves (st : SrvState) (work_id : ℤ) : List (Bool × Bool) → SrvState × List Bool
  | [] => (st, [])
  | oc :: rest =>
    let r := save_work_data st work_id oc.1 oc.2
    let r2 := runSaves r.1 work_id rest
    (r2.1, r.2 :: r2.2)

/-- One serialized `WorkManager` action as observed through the store lock:
a `/work-batch` dequeue, a completed or private submission (any I/O outcome)
naming an id currently assigned, or a producer refill. -/
inductive Step (cfg : SrvConfig) : SrvState → SrvState → Prop
  | batch (st : SrvState) (n : ℕ) : Step cfg st (get_work_batch st n).1
  | save (st : SrvState) (work_id : ℤ) (ok1 ok2 : Bool)
      (h : work_id ∈ st.assigned) : Step cfg st (save_work_data st work_id ok1 ok2).1
  | markPriv (st : SrvState) (work_id : ℤ) (ok1 : Bool)
      (h : work_id ∈ st.assigned) : Step cfg st (mark_private st work_id ok1).1
  | refill (st : SrvState) : Step cfg st (refillStep cfg st)

/-!
Lexical path model for `/cleanup-file`, after `pathlib.PurePosixPath`: a
path is an `absolute` flag plus segments; `/` joins, empty and `.` segments
vanish, and `..` is kept literally (pathlib does not resolve it).  The
filesystem is an oracle `fs : PPath → Bool` saying which paths exist as
regular files.
-/

/-- Split a character list on `/`. -/
def splitSlash : List Char → List (List Char)
  | [] => [[]]
  | c :: rest =>
    match splitSlash rest with
    | [] => [[c]]
    | seg :: segs => if c = '/' then [] :: seg :: segs else (c :: seg) :: segs

/-- A lexical POSIX path. -/
structure PPath : Type where
  absolute : Bool
  segs : List (List Char)
deriving DecidableEq

/-- Parse a path string: note the leading slash, split on `/`, drop empty
and `.` segments. -/
def parsePath (s : String) : PPath :=
  { absolute :=
      match s.toList with
      | '/' :: _ => true
      | _ => false
    segs := (splitSlash s.toList).filter
      (fun seg => !(decide (seg = []) || decide (seg = ['.']))) }

/-- `Path(p) / s`: an absolute right operand replaces the left. -/
def joinPath (p : PPath) (s : String) : PPath :=
  let q := parsePath s
  if q.absolute then q else { absolute := p.absolute, segs := p.segs ++ q.segs }

/-- `.parent`: drop the final segment (purely lexical). -/
def parentPath (p : PPath) : PPath :=
  { absolute := p.absolute, segs := p.segs.dropLast }

/-- `filename.endswith(".gz")`. -/
def endsGz (s : String) : Bool :=
  ['.', 'g', 'z'].isSuffixOf s.toList

/-- The `try` block of the `cleanup_file` handler: existence check, then the
`.gz`-and-parent safety check; deletes the file (returned as `Except.ok`) or
raises `HTTPException(400)` / `HTTPException(404)`. -/
def cleanupTry (output_dir : String) (fs : PPath → Bool) (filename : String) :
    Except ℕ PPath :=
  let file_path := joinPath (parsePath output_dir) filename
  if fs file_path then
    if endsGz filename && decide (parentPath file_path = parsePath output_dir) then
      Except.ok file_path
    else
      Except.error 400
  else
    Except.error 404

/-- The `/cleanup-file` endpoint.  The `except Exception` clause of the
source catches every exception raised in the `try` block — including the
`HTTPException(400)` and `HTTPException(404)` it raised itself, since
`HTTPException` derives from `Exception` — and re-raises
`HTTPException(500)`.  The endpoint therefore answers 200 with a deletion,
or 500.  Result: (HTTP status, deleted path if any). -/
def cleanup_file (output_dir : String) (fs : PPath → Bool) (filename : String) :
    ℕ × Option PPath :=
  match cleanupTry output_dir fs filename with
  | Except.ok p => (200, some p)
  | Except.error _ => (500, none)

/-- Every `public.txt` append in the journal is preceded by a `results.jsonl`
append for the same id. -/
def PrecOk (work_id : ℤ) (ws : List FileWrite) : Prop :=
  ∀ i (hi : i < ws.length), ws[i] = FileWrite.pub work_id →
    ∃ j, ∃ hj : j < ws.length, j < i ∧ ws[j] = FileWrite.res work_id

/-- The run-time disjointness invariant of the serialized `WorkManager`:
`assigned` avoids `completed ∪ private`, and the queue holds distinct ids
that are in no membership set and do not exceed the producer cursor. -/
def SrvInv (st : SrvState) : Prop :=
  (∀ x ∈ st.assigned, x ∉ st.completed ∧ x ∉ st.priv) ∧
  (∀ q ∈ st.available_queue, q ∉ st.completed ∧ q ∉ st.priv ∧ q ∉ st.assigned) ∧
  st.available_queue.Nodup ∧
  (∀ q ∈ st.available_queue, q ≤ st.last_queued_id)

namespace RangeSet

/-! Basic facts about `memb`, well-formed range lists, and the searches. -/

theorem memb_iff {ranges : Ranges} {v : ℤ} :
    memb ranges v = true ↔ ∃ p ∈ ranges, p.1 ≤ v ∧ v ≤ p.2 := by
  simp [memb, List.any_eq_true]

theorem wf_lohi {ranges : Ranges} (h : WF ranges) {i : ℕ} (hi : i < ranges.length) :
    ranges[i].1 ≤ ranges[i].2 :=
  h.1 _ (List.getElem_mem hi)

theorem wf_hi_lt_lo {ranges : Ranges} (h : WF ranges) {i j : ℕ}
    (hij : i < j) (hj : j < ranges.length) :
    ranges[i].2 + 1 < ranges[j].1 :=
  (List.pairwise_iff_getElem.1 h.2) i j (lt_trans hij hj) hj hij

theorem wf_hi_mono {ranges : Ranges} (h : WF ranges) {i j : ℕ}
    (hij : i ≤ j) (hj : j < ranges.length) :
    ranges[i].2 ≤ ranges[j].2 := by
  rcases Nat.eq_or_lt_of_le hij with rfl | hlt
  · exact le_refl _
  · have h1 := wf_hi_lt_lo h hlt hj
    have h2 := wf_lohi h hj
    omega

theorem wf_lo_mono {ranges : Ranges} (h : WF ranges) {i j : ℕ}
    (hij : i ≤ j) (hj : j < ranges.length) :
    ranges[i].1 ≤ ranges[j].1 := by
  rcases Nat.eq_or_lt_of_le hij with rfl | hlt
  · exact le_refl _
  · have h1 := wf_hi_lt_lo h hlt hj
    have h2 := wf_lohi h (lt_trans hlt hj)
    omega

theorem bisectHiGo_spec {ranges : Ranges} {value : ℤ} (h : WF ranges) :
    ∀ fuel left right, right ≤ ranges.length → left ≤ right → right - left ≤ fuel →
    (∀ i (hi : i < ranges.length), i < left → ranges[i].2 < value) →
    (∀ i (hi : i < ranges.length), right ≤ i → value ≤ ranges[i].2) →
    left ≤ bisectHiGo ranges value fuel left right ∧
    bisectHiGo ranges value fuel left right ≤ right ∧
    (∀ i (hi : i < ranges.length),
      i < bisectHiGo ranges value fuel left right → ranges[i].2 < value) ∧
    (∀ i (hi : i < ranges.length),
      bisectHiGo ranges value fuel left right ≤ i → value ≤ ranges[i].2) := by
  intro fuel
  induction fuel with
  | zero =>
    intro left right hlen hlr hfuel h1 h2
    have : left = right := by omega
    subst this
    simp only [bisectHiGo]
    exact ⟨le_refl _, le_refl _, h1, fun i hi hle => h2 i hi hle⟩
  | succ fuel ih =>
    intro left right hlen hlr hfuel h1 h2
    simp only [bisectHiGo]
    by_cases hcmp : left < right
    · rw [if_pos hcmp]
      have hmid : (left + right) / 2 < right := by omega
      have hmidlen : (left + right) / 2 < ranges.length := lt_of_lt_of_le hmid hlen
      have hmidge : left ≤ (left + right) / 2 := by omega
      rw [List.getD_eq_getElem ranges (0, 0) hmidlen]
      by_cases hv : ranges[(left + right) / 2].2 < value
      · rw [if_pos hv]
        have := ih ((left + right) / 2 + 1) right hlen (by omega) (by omega)
          (fun i hi hlt => by
            have : i ≤ (left + right) / 2 := by omega
            exact lt_of_le_of_lt (wf_hi_mono h this hmidlen) hv)
          h2
        exact ⟨le_trans (by omega) this.1, this.2.1, this.2.2.1, this.2.2.2⟩
      · rw [if_neg hv]
        have := ih left ((left + right) / 2) (by omega) (by omega) (by omega)
          h1
          (fun i hi hle => le_trans (not_lt.1 hv) (wf_hi_mono h hle hi))
        exact ⟨this.1, le_trans this.2.1 (by omega), this.2.2.1, this.2.2.2⟩
    · rw [if_neg hcmp]
      have : left = right := by omega
      subst this
      exact ⟨le_refl _, le_refl _, h1, fun i hi hle => h2 i hi hle⟩

theorem bisectHi_spec {ranges : Ranges} {value : ℤ} (h : WF ranges) :
    bisectHi ranges value ≤ ranges.length ∧
    (∀ i (hi : i < ranges.length), i < bisectHi ranges value → ranges[i].2 < value) ∧
    (∀ i (hi : i < ranges.length), bisectHi ranges value ≤ i → value ≤ ranges[i].2) := by
  have := @bisectHiGo_spec ranges value h ranges.length 0 ranges.length (le_refl _)
    (Nat.zero_le _) (by omega) (fun i hi hlt => absurd hlt (Nat.not_lt_zero i))
    (fun i hi hle => absurd hi (not_lt.2 hle))
  exact ⟨this.2.1, this.2.2.1, this.2.2.2⟩

theorem containsGo_spec {ranges : Ranges} {value : ℤ} (h : WF ranges) :
    ∀ fuel left right, right ≤ ranges.length → left ≤ right → right - left ≤ fuel →
    (∀ i (hi : i < ranges.length), i < left → ranges[i].2 < value) →
    (∀ i (hi : i < ranges.length), right ≤ i → value < ranges[i].1) →
    containsGo ranges value fuel left right = memb ranges value := by
  intro fuel
  induction fuel with
  | zero =>
    intro left right hlen hlr hfuel h1 h2
    simp only [containsGo]
    symm
    rw [← Bool.not_eq_true, memb_iff]
    rintro ⟨p, hp, hp1, hp2⟩
    obtain ⟨i, hi, rfl⟩ := List.mem_iff_getElem.1 hp
    rcases lt_or_ge i left with hil | hil
    · exact absurd hp2 (not_le.2 (h1 i hi hil))
    · exact absurd hp1 (not_le.2 (h2 i hi (by omega)))
  | succ fuel ih =>
    intro left right hlen hlr hfuel h1 h2
    simp only [containsGo]
    by_cases hcmp : left < right
    · rw [if_pos hcmp]
      have hmid : (left + right) / 2 < right := by omega
      have hmidlen : (left + right) / 2 < ranges.length := lt_of_lt_of_le hmid hlen
      have hmidge : left ≤ (left + right) / 2 := by omega
      rw [List.getD_eq_getElem ranges (0, 0) hmidlen]
      by_cases hlo : value < ranges[(left + right) / 2].1
      · rw [if_pos hlo]
        exact ih left ((left + right) / 2) (by omega) (by omega) (by omega) h1
          (fun i hi hle => lt_of_lt_of_le hlo (wf_lo_mono h hle hi))
      · rw [if_neg hlo]
        by_cases hhi : value > ranges[(left + right) / 2].2
        · rw [if_pos hhi]
          exact ih ((left + right) / 2 + 1) right hlen (by omega) (by omega)
            (fun i hi hlt => by
              have : i ≤ (left + right) / 2 := by omega
              exact lt_of_le_of_lt (wf_hi_mono h this hmidlen) hhi)
            h2
        · rw [if_neg hhi]
          symm
          rw [memb_iff]
          exact ⟨ranges[(left + right) / 2], List.getElem_mem hmidlen,
            not_lt.1 hlo, not_lt.1 hhi⟩
    · rw [if_neg hcmp]
      have : left = right := by omega
      subst this
      symm
      rw [← Bool.not_eq_true, memb_iff]
      rintro ⟨p, hp, hp1, hp2⟩
      obtain ⟨i, hi, rfl⟩ := List.mem_iff_getElem.1 hp
      rcases lt_or_ge i left with hil | hil
      · exact absurd hp2 (not_le.2 (h1 i hi hil))
      · exact absurd hp1 (not_le.2 (h2 i hi hil))

/-- On well-formed range lists the binary-search `__contains__` agrees with
linear membership. -/
theorem contains_eq_memb {ranges : Ranges} {value : ℤ} (h : WF ranges) :
    contains ranges value = memb ranges value :=
  @containsGo_spec ranges value h ranges.length 0 ranges.length (le_refl _)
    (Nat.zero_le _) (by omega) (fun i hi hlt => absurd hlt (Nat.not_lt_zero i))
    (fun i hi hle => absurd hi (not_lt.2 hle))


/-! `intRange` and `filter_range`. -/

theorem mem_intRange {a b v : ℤ} : v ∈ intRange a b ↔ a ≤ v ∧ v < b := by
  constructor
  · intro hv
    obtain ⟨i, hi, rfl⟩ := List.mem_map.1 hv
    have := List.mem_range.1 hi
    constructor
    · omega
    · omega
  · intro hv
    refine List.mem_map.2 ⟨(v - a).toNat, List.mem_range.2 (by omega), by omega⟩

theorem intRange_sorted (a b : ℤ) : (intRange a b).Sorted (· < ·) := by
  rw [List.Sorted, intRange, List.pairwise_map]
  exact (List.pairwise_lt_range _).imp (fun hij => by omega)

theorem intRange_nodup (a b : ℤ) : (intRange a b).Nodup :=
  (intRange_sorted a b).imp (fun hlt => ne_of_lt hlt)

theorem memb_eq_true_iff {ranges : Ranges} {v : ℤ} :
    memb ranges v = true ↔ MemS ranges v := memb_iff

theorem memb_eq_false_iff {ranges : Ranges} {v : ℤ} :
    memb ranges v = false ↔ ¬ MemS ranges v := by
  rw [← Bool.not_eq_true, memb_iff]
  exact Iff.rfl

theorem memS_nil {v : ℤ} : ¬ MemS [] v := by
  rintro ⟨p, hp, _⟩
  exact List.not_mem_nil p hp

theorem memS_cons {p : ℤ × ℤ} {rest : Ranges} {v : ℤ} :
    MemS (p :: rest) v ↔ (p.1 ≤ v ∧ v ≤ p.2) ∨ MemS rest v := by
  constructor
  · rintro ⟨q, hq, h1, h2⟩
    rcases List.mem_cons.1 hq with rfl | hq
    · exact Or.inl ⟨h1, h2⟩
    · exact Or.inr ⟨q, hq, h1, h2⟩
  · rintro (⟨h1, h2⟩ | ⟨q, hq, h1, h2⟩)
    · exact ⟨p, List.mem_cons_self _ _, h1, h2⟩
    · exact ⟨q, List.mem_cons_of_mem _ hq, h1, h2⟩

theorem memS_append {l1 l2 : Ranges} {v : ℤ} :
    MemS (l1 ++ l2) v ↔ MemS l1 v ∨ MemS l2 v := by
  constructor
  · rintro ⟨q, hq, h1, h2⟩
    rcases List.mem_append.1 hq with hq | hq
    · exact Or.inl ⟨q, hq, h1, h2⟩
    · exact Or.inr ⟨q, hq, h1, h2⟩
  · rintro (⟨q, hq, h1, h2⟩ | ⟨q, hq, h1, h2⟩)
    · exact ⟨q, List.mem_append.2 (Or.inl hq), h1, h2⟩
    · exact ⟨q, List.mem_append.2 (Or.inr hq), h1, h2⟩

theorem wf_tail {p : ℤ × ℤ} {rest : Ranges} (h : WF (p :: rest)) : WF rest :=
  ⟨fun q hq => h.1 q (List.mem_cons_of_mem _ hq), (List.pairwise_cons.1 h.2).2⟩

theorem wf_drop {ranges : Ranges} (h : WF ranges) (k : ℕ) : WF (ranges.drop k) :=
  ⟨fun q hq => h.1 q (List.mem_of_mem_drop hq),
   List.Pairwise.sublist (List.drop_sublist k ranges) h.2⟩

theorem memS_chain_gt {re : ℤ} {rest : Ranges}
    (hchain : ∀ q ∈ rest, re + 1 < q.1) {v : ℤ} (hm : MemS rest v) :
    re + 1 < v := by
  obtain ⟨q, hq, h1, h2⟩ := hm
  have := hchain q hq
  omega

theorem filterGo_mem (e : ℤ) : ∀ (rgs : Ranges), WF rgs → ∀ (current v : ℤ),
    v ∈ filterGo rgs e current ↔ (current ≤ v ∧ v ≤ e ∧ ¬ MemS rgs v) := by
  intro rgs
  induction rgs with
  | nil =>
    intro _ current v
    simp only [filterGo, mem_intRange]
    constructor
    · intro hv
      exact ⟨hv.1, by omega, memS_nil⟩
    · intro hv
      exact ⟨hv.1, by omega⟩
  | cons p rest ih =>
    rcases p with ⟨rs, re⟩
    intro h current v
    have hlohi : rs ≤ re := h.1 (rs, re) (List.mem_cons_self _ _)
    have hchain : ∀ q ∈ rest, re + 1 < q.1 := by
      intro q hq
      exact (List.pairwise_cons.1 h.2).1 q hq
    have hrest := wf_tail h
    simp only [filterGo, memS_cons]
    by_cases hbreak : rs > e
    · rw [if_pos hbreak, mem_intRange]
      constructor
      · intro hv
        refine ⟨hv.1, by omega, ?_⟩
        rintro (⟨h1, h2⟩ | hc)
        · omega
        · have := memS_chain_gt hchain hc
          omega
      · rintro ⟨h1, h2, _⟩
        exact ⟨h1, by omega⟩
    · rw [if_neg hbreak, List.mem_append, ih hrest (max current (re + 1)) v]
      by_cases hpre : current < rs
      · rw [if_pos hpre, mem_intRange]
        constructor
        · rintro (⟨h1, h2⟩ | ⟨h1, h2, h3⟩)
          · have hv1 : v < rs := lt_of_lt_of_le h2 (min_le_left _ _)
            have hv2 : v < e + 1 := lt_of_lt_of_le h2 (min_le_right _ _)
            refine ⟨h1, by omega, ?_⟩
            rintro (⟨g1, g2⟩ | hc)
            · omega
            · have := memS_chain_gt hchain hc
              omega
          · have h4 : re + 1 ≤ v := le_trans (le_max_right _ _) h1
            have h5 : current ≤ v := le_trans (le_max_left _ _) h1
            refine ⟨h5, h2, ?_⟩
            rintro (⟨g1, g2⟩ | hc)
            · omega
            · exact h3 hc
        · rintro ⟨h1, h2, h3⟩
          rcases not_or.1 h3 with ⟨h3a, h3b⟩
          by_cases hvrs : v < rs
          · exact Or.inl ⟨h1, lt_min hvrs (by omega)⟩
          · refine Or.inr ⟨max_le h1 (by omega), h2, h3b⟩
      · rw [if_neg hpre]
        simp only [List.not_mem_nil, false_or]
        constructor
        · rintro ⟨h1, h2, h3⟩
          have h4 : re + 1 ≤ v := le_trans (le_max_right _ _) h1
          have h5 : current ≤ v := le_trans (le_max_left _ _) h1
          refine ⟨h5, h2, ?_⟩
          rintro (⟨g1, g2⟩ | hc)
          · omega
          · exact h3 hc
        · rintro ⟨h1, h2, h3⟩
          rcases not_or.1 h3 with ⟨h3a, h3b⟩
          refine ⟨max_le h1 (by omega), h2, h3b⟩

theorem filterGo_sorted (e : ℤ) : ∀ (rgs : Ranges), WF rgs → ∀ (current : ℤ),
    (filterGo rgs e current).Sorted (· < ·) := by
  intro rgs
  induction rgs with
  | nil =>
    intro _ current
    exact intRange_sorted _ _
  | cons p rest ih =>
    rcases p with ⟨rs, re⟩
    intro h current
    have hrest := wf_tail h
    simp only [filterGo]
    by_cases hbreak : rs > e
    · rw [if_pos hbreak]
      exact intRange_sorted _ _
    · rw [if_neg hbreak]
      rw [List.Sorted, List.pairwise_append]
      refine ⟨?_, ih hrest _, ?_⟩
      · by_cases hpre : current < rs
        · rw [if_pos hpre]
          exact intRange_sorted _ _
        · rw [if_neg hpre]
          exact List.Pairwise.nil
      · intro a ha b hb
        have hb' := ((filterGo_mem e rest hrest _ b).1 hb).1
        have hb2 : re + 1 ≤ b := le_trans (le_max_right _ _) hb'
        by_cases hpre : current < rs
        · rw [if_pos hpre] at ha
          have ha2 := (mem_intRange.1 ha).2
          have ha3 : a < rs := lt_of_lt_of_le ha2 (min_le_left _ _)
          have hlohi : rs ≤ re := h.1 (rs, re) (List.mem_cons_self _ _)
          omega
        · rw [if_neg hpre] at ha
          exact absurd ha (List.not_mem_nil a)

theorem memS_take_false {ranges : Ranges} {s v : ℤ} {k : ℕ}
    (hk : ∀ i (hi : i < ranges.length), i < k → ranges[i].2 < s)
    (hv : s ≤ v) : ¬ MemS (ranges.take k) v := by
  rintro ⟨q, hq, h1, h2⟩
  obtain ⟨i, hi, rfl⟩ := List.mem_iff_getElem.1 hq
  rw [List.getElem_take] at h1 h2
  have hlen : i < ranges.length := by
    have h3 := hi
    rw [List.length_take] at h3
    omega
  have hik : i < k := by
    have h3 := hi
    rw [List.length_take] at h3
    omega
  have := hk i hlen hik
  omega

theorem memS_drop_iff {ranges : Ranges} {s v : ℤ} {k : ℕ}
    (hk : ∀ i (hi : i < ranges.length), i < k → ranges[i].2 < s)
    (hv : s ≤ v) : MemS (ranges.drop k) v ↔ MemS ranges v := by
  conv_rhs => rw [← List.take_append_drop k ranges]
  rw [memS_append]
  constructor
  · exact Or.inr
  · rintro (hc | hc)
    · exact absurd hc (memS_take_false hk hv)
    · exact hc


/-- The `filter_range` law as one statement over well-formed range lists:
the result is exactly the ascending sorted list of values in `[lo, hi]` not
contained in the set (stated by membership + strict sortedness, which
determine the list uniquely), and it is empty when `lo > hi`. -/
theorem filter_range_law (R : Ranges) (lo hi : ℤ) (h : WF R) :
    (∀ v : ℤ, v ∈ filter_range R lo hi ↔ (lo ≤ v ∧ v ≤ hi ∧ contains R v = false)) ∧
    (filter_range R lo hi).Sorted (· < ·) ∧
    (hi < lo → filter_range R lo hi = []) := by
  have hb := @bisectHi_spec R lo h
  have hdropWF := wf_drop h (bisectHi R lo)
  have hmem : ∀ v : ℤ, v ∈ filter_range R lo hi ↔
      (lo ≤ v ∧ v ≤ hi ∧ ¬ MemS R v) := by
    intro v
    rw [filter_range, filterGo_mem hi _ hdropWF lo v]
    constructor
    · rintro ⟨h1, h2, h3⟩
      exact ⟨h1, h2, fun hc => h3 ((memS_drop_iff hb.2.1 h1).2 hc)⟩
    · rintro ⟨h1, h2, h3⟩
      exact ⟨h1, h2, fun hc => h3 ((memS_drop_iff hb.2.1 h1).1 hc)⟩
  refine ⟨?_, ?_, ?_⟩
  · intro v
    rw [hmem v, contains_eq_memb h, memb_eq_false_iff]
  · rw [filter_range]
    exact filterGo_sorted hi _ hdropWF lo
  · intro hlt
    rw [List.eq_nil_iff_forall_not_mem]
    intro v hv
    have := (hmem v).1 hv
    omega


/-! `_add_range`, the union merge loop, and canonicity of well-formed lists. -/

theorem interval_union_iff {l1 l2 r1 r2 v : ℤ} (h1 : l1 ≤ r1) (h2 : r1 ≤ l2 + 1) :
    (l1 ≤ v ∧ v ≤ max l2 r2) ↔ ((l1 ≤ v ∧ v ≤ l2) ∨ (r1 ≤ v ∧ v ≤ r2)) := by
  rcases max_choice l2 r2 with hm | hm
  · have := le_max_right l2 r2
    rw [hm] at *
    omega
  · have := le_max_left l2 r2
    rw [hm] at *
    omega

theorem wf_singleton {r : ℤ × ℤ} (hr : r.1 ≤ r.2) : WF [r] := by
  constructor
  · intro p hp
    rw [List.mem_singleton] at hp
    subst hp
    exact hr
  · exact List.pairwise_singleton _ _

theorem addRange_wf {acc : Ranges} {r : ℤ × ℤ} (hacc : WF acc) (hr : r.1 ≤ r.2)
    (hlast : ∀ l, acc.getLast? = some l → l.1 ≤ r.1) : WF (addRange acc r) := by
  rcases List.eq_nil_or_concat acc with rfl | ⟨ys, l, rfl⟩
  · simp only [addRange, List.getLast?_nil]
    exact wf_singleton hr
  · rw [List.concat_eq_append] at *
    simp only [addRange, List.getLast?_concat, List.dropLast_concat]
    have hl12 : l.1 ≤ l.2 := hacc.1 l (List.mem_append.2 (Or.inr (List.mem_singleton.2 rfl)))
    have hcross : ∀ a ∈ ys, a.2 + 1 < l.1 := by
      intro a ha
      exact (List.pairwise_append.1 hacc.2).2.2 a ha l (List.mem_singleton.2 rfl)
    by_cases hmerge : r.1 ≤ l.2 + 1
    · rw [if_pos hmerge]
      constructor
      · intro p hp
        rcases List.mem_append.1 hp with hp | hp
        · exact hacc.1 p (List.mem_append.2 (Or.inl hp))
        · rw [List.mem_singleton] at hp
          subst hp
          have := le_max_left l.2 r.2
          omega
      · rw [List.pairwise_append]
        refine ⟨(List.pairwise_append.1 hacc.2).1, List.pairwise_singleton _ _, ?_⟩
        intro a ha p hp
        rw [List.mem_singleton] at hp
        subst hp
        exact hcross a ha
    · rw [if_neg hmerge]
      constructor
      · intro p hp
        rcases List.mem_append.1 hp with hp | hp
        · exact hacc.1 p hp
        · rw [List.mem_singleton] at hp
          subst hp
          exact hr
      · rw [List.pairwise_append]
        refine ⟨hacc.2, List.pairwise_singleton _ _, ?_⟩
        intro a ha p hp
        rw [List.mem_singleton] at hp
        subst hp
        rcases List.mem_append.1 ha with ha | ha
        · have := hcross a ha
          omega
        · rw [List.mem_singleton] at ha
          subst ha
          omega

theorem addRange_mem {acc : Ranges} {r : ℤ × ℤ} (hacc : WF acc) (_hr : r.1 ≤ r.2)
    (hlast : ∀ l, acc.getLast? = some l → l.1 ≤ r.1) (v : ℤ) :
    MemS (addRange acc r) v ↔ MemS acc v ∨ (r.1 ≤ v ∧ v ≤ r.2) := by
  rcases List.eq_nil_or_concat acc with rfl | ⟨ys, l, rfl⟩
  · simp only [addRange, List.getLast?_nil]
    rw [memS_cons]
    constructor
    · rintro (h | h)
      · exact Or.inr h
      · exact absurd h memS_nil
    · rintro (h | h)
      · exact absurd h memS_nil
      · exact Or.inl h
  · rw [List.concat_eq_append] at *
    simp only [addRange, List.getLast?_concat, List.dropLast_concat]
    have hl1r : l.1 ≤ r.1 := hlast l (List.getLast?_concat ys)
    have hl12 : l.1 ≤ l.2 := hacc.1 l (List.mem_append.2 (Or.inr (List.mem_singleton.2 rfl)))
    by_cases hmerge : r.1 ≤ l.2 + 1
    · rw [if_pos hmerge]
      rw [memS_append, memS_append, memS_cons, memS_cons]
      have hiu := @interval_union_iff l.1 l.2 r.1 r.2 v hl1r hmerge
      constructor
      · rintro (h | (h | h))
        · exact Or.inl (Or.inl h)
        · rcases hiu.1 h with h2 | h2
          · exact Or.inl (Or.inr (Or.inl h2))
          · exact Or.inr h2
        · exact absurd h memS_nil
      · rintro ((h | (h | h)) | h)
        · exact Or.inl h
        · exact Or.inr (Or.inl (hiu.2 (Or.inl h)))
        · exact absurd h memS_nil
        · exact Or.inr (Or.inl (hiu.2 (Or.inr h)))
    · rw [if_neg hmerge]
      rw [memS_append, memS_cons]
      constructor
      · rintro (h | (h | h))
        · exact Or.inl h
        · exact Or.inr h
        · exact absurd h memS_nil
      · rintro (h | h)
        · exact Or.inl h
        · exact Or.inr (Or.inl h)

theorem addRange_lastLo {acc : Ranges} {r : ℤ × ℤ}
    (hlast : ∀ l, acc.getLast? = some l → l.1 ≤ r.1) :
    ∀ l, (addRange acc r).getLast? = some l → l.1 ≤ r.1 := by
  rcases List.eq_nil_or_concat acc with rfl | ⟨ys, l0, rfl⟩
  · simp only [addRange, List.getLast?_nil]
    intro l hl
    have hr2 : ([r] : Ranges).getLast? = some r := rfl
    rw [hr2, Option.some_inj] at hl
    subst hl
    exact le_refl _
  · rw [List.concat_eq_append] at *
    simp only [addRange, List.getLast?_concat, List.dropLast_concat]
    have hl0 : l0.1 ≤ r.1 := hlast l0 (List.getLast?_concat ys)
    by_cases hmerge : r.1 ≤ l0.2 + 1
    · rw [if_pos hmerge]
      intro l hl
      rw [List.getLast?_concat] at hl
      rw [Option.some_inj] at hl
      subst hl
      exact hl0
    · rw [if_neg hmerge]
      intro l hl
      rw [List.getLast?_concat] at hl
      rw [Option.some_inj] at hl
      subst hl
      exact le_refl _

theorem unionGo_spec : ∀ (fuel : ℕ) (x y acc : Ranges),
    x.length + y.length ≤ fuel → WF x → WF y → WF acc →
    (∀ p ∈ x, ∀ l, acc.getLast? = some l → l.1 ≤ p.1) →
    (∀ p ∈ y, ∀ l, acc.getLast? = some l → l.1 ≤ p.1) →
    WF (unionGo fuel x y acc) ∧
    (∀ v, MemS (unionGo fuel x y acc) v ↔ MemS acc v ∨ MemS x v ∨ MemS y v) := by
  intro fuel
  induction fuel with
  | zero =>
    intro x y acc hfuel hx hy hacc hlx hly
    have hxnil : x = [] := List.length_eq_zero.1 (by omega)
    have hynil : y = [] := List.length_eq_zero.1 (by omega)
    subst hxnil
    subst hynil
    rw [unionGo]
    exact ⟨hacc, fun v => by
      constructor
      · exact Or.inl
      · rintro (h | h | h)
        · exact h
        · exact absurd h memS_nil
        · exact absurd h memS_nil⟩
  | succ fuel ih =>
    intro x y acc hfuel hx hy hacc hlx hly
    match x, y with
    | [], [] =>
      rw [unionGo]
      exact ⟨hacc, fun v => by
        constructor
        · exact Or.inl
        · rintro (h | h | h)
          · exact h
          · exact absurd h memS_nil
          · exact absurd h memS_nil⟩
    | [], b :: bs =>
      rw [unionGo]
      have hb12 : b.1 ≤ b.2 := hy.1 b (List.mem_cons_self _ _)
      have hbchain : ∀ q ∈ bs, b.2 + 1 < q.1 := fun q hq => (List.pairwise_cons.1 hy.2).1 q hq
      have hblast := hly b (List.mem_cons_self _ _)
      have h1 := addRange_wf hacc hb12 hblast
      have h2 := @addRange_lastLo acc b hblast
      have := ih [] bs (addRange acc b) (by simp at hfuel ⊢; omega) hx (wf_tail hy) h1
        (fun p hp => absurd hp (List.not_mem_nil p))
        (fun p hp l hl => le_trans (h2 l hl) (by
          have := hbchain p hp
          omega))
      refine ⟨this.1, fun v => ?_⟩
      rw [this.2 v, addRange_mem hacc hb12 hblast, memS_cons]
      constructor
      · rintro ((h | h) | h | h)
        · exact Or.inl h
        · exact Or.inr (Or.inr (Or.inl h))
        · exact absurd h memS_nil
        · exact Or.inr (Or.inr (Or.inr h))
      · rintro (h | h | (h | h))
        · exact Or.inl (Or.inl h)
        · exact absurd h memS_nil
        · exact Or.inl (Or.inr h)
        · exact Or.inr (Or.inr h)
    | a :: as, [] =>
      rw [unionGo]
      have ha12 : a.1 ≤ a.2 := hx.1 a (List.mem_cons_self _ _)
      have hachain : ∀ q ∈ as, a.2 + 1 < q.1 := fun q hq => (List.pairwise_cons.1 hx.2).1 q hq
      have halast := hlx a (List.mem_cons_self _ _)
      have h1 := addRange_wf hacc ha12 halast
      have h2 := @addRange_lastLo acc a halast
      have := ih as [] (addRange acc a) (by simp at hfuel ⊢; omega) (wf_tail hx) hy h1
        (fun p hp l hl => le_trans (h2 l hl) (by
          have := hachain p hp
          omega))
        (fun p hp => absurd hp (List.not_mem_nil p))
      refine ⟨this.1, fun v => ?_⟩
      rw [this.2 v, addRange_mem hacc ha12 halast, memS_cons]
      constructor
      · rintro ((h | h) | h | h)
        · exact Or.inl h
        · exact Or.inr (Or.inl (Or.inl h))
        · exact Or.inr (Or.inl (Or.inr h))
        · exact absurd h memS_nil
      · rintro (h | (h | h) | h)
        · exact Or.inl (Or.inl h)
        · exact Or.inl (Or.inr h)
        · exact Or.inr (Or.inl h)
        · exact absurd h memS_nil
    | a :: as, b :: bs =>
      rw [unionGo]
      have ha12 : a.1 ≤ a.2 := hx.1 a (List.mem_cons_self _ _)
      have hb12 : b.1 ≤ b.2 := hy.1 b (List.mem_cons_self _ _)
      have hachain : ∀ q ∈ as, a.2 + 1 < q.1 := fun q hq => (List.pairwise_cons.1 hx.2).1 q hq
      have hbchain : ∀ q ∈ bs, b.2 + 1 < q.1 := fun q hq => (List.pairwise_cons.1 hy.2).1 q hq
      have halast := hlx a (List.mem_cons_self _ _)
      have hblast := hly b (List.mem_cons_self _ _)
      by_cases hab : a.1 ≤ b.1
      · rw [if_pos hab]
        have h1 := addRange_wf hacc ha12 halast
        have h2 := @addRange_lastLo acc a halast
        have := ih as (b :: bs) (addRange acc a) (by simp at hfuel ⊢; omega)
          (wf_tail hx) hy h1
          (fun p hp l hl => le_trans (h2 l hl) (by
            have := hachain p hp
            omega))
          (fun p hp l hl => by
            rcases List.mem_cons.1 hp with rfl | hp
            · exact le_trans (h2 l hl) hab
            · have := hbchain p hp
              have := h2 l hl
              omega)
        refine ⟨this.1, fun v => ?_⟩
        rw [this.2 v, addRange_mem hacc ha12 halast, @memS_cons a as v]
        constructor
        · rintro ((h | h) | h | h)
          · exact Or.inl h
          · exact Or.inr (Or.inl (Or.inl h))
          · exact Or.inr (Or.inl (Or.inr h))
          · exact Or.inr (Or.inr h)
        · rintro (h | (h | h) | h)
          · exact Or.inl (Or.inl h)
          · exact Or.inl (Or.inr h)
          · exact Or.inr (Or.inl h)
          · exact Or.inr (Or.inr h)
      · rw [if_neg hab]
        have h1 := addRange_wf hacc hb12 hblast
        have h2 := @addRange_lastLo acc b hblast
        have := ih (a :: as) bs (addRange acc b) (by simp at hfuel ⊢; omega)
          hx (wf_tail hy) h1
          (fun p hp l hl => by
            rcases List.mem_cons.1 hp with rfl | hp
            · exact le_trans (h2 l hl) (by omega)
            · have := hachain p hp
              have := h2 l hl
              omega)
          (fun p hp l hl => le_trans (h2 l hl) (by
            have := hbchain p hp
            omega))
        refine ⟨this.1, fun v => ?_⟩
        rw [this.2 v, addRange_mem hacc hb12 hblast, @memS_cons b bs v]
        constructor
        · rintro ((h | h) | h | h)
          · exact Or.inl h
          · exact Or.inr (Or.inr (Or.inl h))
          · exact Or.inr (Or.inl h)
          · exact Or.inr (Or.inr (Or.inr h))
        · rintro (h | h | (h | h))
          · exact Or.inl (Or.inl h)
          · exact Or.inr (Or.inl h)
          · exact Or.inl (Or.inr h)
          · exact Or.inr (Or.inr h)

theorem union_spec {a b : Ranges} (ha : WF a) (hb : WF b) :
    WF (union a b) ∧ (∀ v, MemS (union a b) v ↔ MemS a v ∨ MemS b v) := by
  have := unionGo_spec (a.length + b.length) a b [] (le_refl _) ha hb
    ⟨fun p hp => absurd hp (List.not_mem_nil p), List.Pairwise.nil⟩
    (fun p _ l hl => by cases hl)
    (fun p _ l hl => by cases hl)
  refine ⟨this.1, fun v => ?_⟩
  rw [union, this.2 v]
  constructor
  · rintro (h | h)
    · exact absurd h memS_nil
    · exact h
  · exact Or.inr

/-- Two well-formed range lists with the same members are equal. -/
theorem canonical : ∀ (A B : Ranges), WF A → WF B →
    (∀ v, MemS A v ↔ MemS B v) → A = B := by
  intro A
  induction A with
  | nil =>
    intro B hA hB hmem
    cases B with
    | nil => rfl
    | cons b bs =>
      exfalso
      have hb12 : b.1 ≤ b.2 := hB.1 b (List.mem_cons_self _ _)
      exact memS_nil ((hmem b.1).2 (memS_cons.2 (Or.inl ⟨le_refl _, hb12⟩)))
  | cons a as ih =>
    intro B hA hB hmem
    cases B with
    | nil =>
      exfalso
      have ha12 : a.1 ≤ a.2 := hA.1 a (List.mem_cons_self _ _)
      exact memS_nil ((hmem a.1).1 (memS_cons.2 (Or.inl ⟨le_refl _, ha12⟩)))
    | cons b bs =>
      have ha12 : a.1 ≤ a.2 := hA.1 a (List.mem_cons_self _ _)
      have hb12 : b.1 ≤ b.2 := hB.1 b (List.mem_cons_self _ _)
      have hachain : ∀ q ∈ as, a.2 + 1 < q.1 := fun q hq => (List.pairwise_cons.1 hA.2).1 q hq
      have hbchain : ∀ q ∈ bs, b.2 + 1 < q.1 := fun q hq => (List.pairwise_cons.1 hB.2).1 q hq
      have hmin : ∀ v, MemS (a :: as) v → a.1 ≤ v := by
        intro v hv
        rcases memS_cons.1 hv with ⟨h1, _⟩ | hv
        · exact h1
        · have := memS_chain_gt hachain hv
          omega
      have hminB : ∀ v, MemS (b :: bs) v → b.1 ≤ v := by
        intro v hv
        rcases memS_cons.1 hv with ⟨h1, _⟩ | hv
        · exact h1
        · have := memS_chain_gt hbchain hv
          omega
      have hlo : a.1 = b.1 := by
        have h1 := hminB a.1 ((hmem a.1).1 (memS_cons.2 (Or.inl ⟨le_refl _, ha12⟩)))
        have h2 := hmin b.1 ((hmem b.1).2 (memS_cons.2 (Or.inl ⟨le_refl _, hb12⟩)))
        omega
      have hhi : a.2 = b.2 := by
        by_contra hne
        rcases lt_or_gt_of_ne hne with hlt | hgt
        · have hin : MemS (b :: bs) (a.2 + 1) :=
            memS_cons.2 (Or.inl ⟨by omega, by omega⟩)
          have hout : ¬ MemS (a :: as) (a.2 + 1) := by
            rintro hv
            rcases memS_cons.1 hv with ⟨_, h2⟩ | hv
            · omega
            · have := memS_chain_gt hachain hv
              omega
          exact hout ((hmem _).2 hin)
        · have hin : MemS (a :: as) (b.2 + 1) :=
            memS_cons.2 (Or.inl ⟨by omega, by omega⟩)
          have hout : ¬ MemS (b :: bs) (b.2 + 1) := by
            rintro hv
            rcases memS_cons.1 hv with ⟨_, h2⟩ | hv
            · omega
            · have := memS_chain_gt hbchain hv
              omega
          exact hout ((hmem _).1 hin)
      have hab : a = b := Prod.ext hlo hhi
      subst hab
      have htails : ∀ v, MemS as v ↔ MemS bs v := by
        intro v
        constructor
        · intro hv
          have hgt := memS_chain_gt hachain hv
          rcases memS_cons.1 ((hmem v).1 (memS_cons.2 (Or.inr hv))) with ⟨_, h2⟩ | hv2
          · omega
          · exact hv2
        · intro hv
          have hgt := memS_chain_gt hbchain hv
          rcases memS_cons.1 ((hmem v).2 (memS_cons.2 (Or.inr hv))) with ⟨_, h2⟩ | hv2
          · omega
          · exact hv2
      rw [ih bs (wf_tail hA) (wf_tail hB) htails]


/-! Preservation of the structural invariant by every mutating operation. -/

theorem wf_splice {ranges : Ranges} (h : WF ranges) {i j : ℕ} (mid : Ranges)
    (hij : i ≤ j) (hj : j ≤ ranges.length) (hmid : WF mid)
    (hc1 : ∀ p ∈ mid, ∀ a (ha : a < ranges.length), a < i → ranges[a].2 + 1 < p.1)
    (hc2 : ∀ p ∈ mid, ∀ b (hb : b < ranges.length), j ≤ b → p.2 + 1 < ranges[b].1) :
    WF (ranges.take i ++ mid ++ ranges.drop j) := by
  have hmemtake : ∀ p ∈ ranges.take i, ∃ a, ∃ ha : a < ranges.length, a < i ∧ ranges[a] = p := by
    intro p hp
    obtain ⟨a, ha, hpa⟩ := List.mem_iff_getElem.1 hp
    rw [List.getElem_take] at hpa
    have halen := ha
    rw [List.length_take] at halen
    exact ⟨a, by omega, by omega, hpa⟩
  have hmemdrop : ∀ p ∈ ranges.drop j, ∃ b, ∃ hb : b < ranges.length, j ≤ b ∧ ranges[b] = p := by
    intro p hp
    obtain ⟨b, hb, hpb⟩ := List.mem_iff_getElem.1 hp
    rw [List.getElem_drop] at hpb
    have hblen := hb
    rw [List.length_drop] at hblen
    exact ⟨j + b, by omega, by omega, hpb⟩
  constructor
  · intro p hp
    rcases List.mem_append.1 hp with hp | hp
    · rcases List.mem_append.1 hp with hp | hp
      · exact h.1 p (List.mem_of_mem_take hp)
      · exact hmid.1 p hp
    · exact h.1 p (List.mem_of_mem_drop hp)
  · rw [List.append_assoc, List.pairwise_append, List.pairwise_append]
    refine ⟨List.Pairwise.sublist (List.take_sublist i ranges) h.2,
      ⟨hmid.2, List.Pairwise.sublist (List.drop_sublist j ranges) h.2, ?_⟩, ?_⟩
    · intro p hp q hq
      obtain ⟨b, hb, hjb, rfl⟩ := hmemdrop q hq
      exact hc2 p hp b hb hjb
    · intro p hp q hq
      obtain ⟨a, ha, hai, rfl⟩ := hmemtake p hp
      rcases List.mem_append.1 hq with hq | hq
      · exact hc1 q hq a ha hai
      · obtain ⟨b, hb, hjb, rfl⟩ := hmemdrop q hq
        exact wf_hi_lt_lo h (by omega) hb

theorem add_gap_below {ranges : Ranges} {value : ℤ} {k : ℕ} (h : WF ranges)
    (hkle : k ≤ ranges.length)
    (hk1 : ∀ i (hi : i < ranges.length), i < k → ranges[i].2 < value)
    (hprev : ¬(0 < k ∧ k - 1 < ranges.length ∧ ∀ hkl : k - 1 < ranges.length,
      ranges[k - 1].2 + 1 = value)) :
    ∀ a (ha : a < ranges.length), a < k → ranges[a].2 + 1 < value := by
  intro a ha hak
  have hk1len : k - 1 < ranges.length := by omega
  have h1 := hk1 (k - 1) hk1len (by omega)
  have h2 : ranges[k - 1].2 + 1 ≠ value := by
    intro hc
    exact hprev ⟨by omega, hk1len, fun _ => hc⟩
  have h3 : ranges[a].2 ≤ ranges[k - 1].2 := wf_hi_mono h (by omega) hk1len
  omega

theorem add_gap_above {ranges : Ranges} {value : ℤ} {k : ℕ} (h : WF ranges)
    (hk2 : ∀ i (hi : i < ranges.length), k ≤ i → value ≤ ranges[i].2)
    (hklen : k < ranges.length)
    (hin : ¬(ranges[k].1 ≤ value ∧ value ≤ ranges[k].2))
    (hnext : ranges[k].1 - 1 ≠ value) :
    ∀ b (hb : b < ranges.length), k ≤ b → value + 1 < ranges[b].1 := by
  intro b hb hkb
  have h1 := hk2 k hklen (le_refl k)
  have h2 : value < ranges[k].1 := by
    by_contra hc
    exact hin ⟨by omega, h1⟩
  have h3 := wf_lo_mono h hkb hb
  omega

theorem add_wf {ranges : Ranges} (h : WF ranges) (value : ℤ) :
    WF (add ranges value) := by
  by_cases hemp : ranges.isEmpty
  · rw [add, if_pos hemp]
    exact wf_singleton (le_refl value)
  · obtain ⟨hkle, hk1, hk2⟩ := @bisectHi_spec ranges value h
    have hnemp : 0 < ranges.length := by
      rcases ranges with _ | ⟨p, rest⟩
      · simp at hemp
      · simp
    rw [add, if_neg hemp]
    simp only
    set k := bisectHi ranges value with hkdef
    have hk1len : k - 1 < ranges.length := by omega
    by_cases hklen : k < ranges.length
    · rw [List.getD_eq_getElem ranges (0, 0) hklen]
      by_cases hin : k < ranges.length ∧ ranges[k].1 ≤ value ∧ value ≤ ranges[k].2
      · rw [if_pos hin]
        exact h
      · rw [if_neg hin]
        have hin' : ¬(ranges[k].1 ≤ value ∧ value ≤ ranges[k].2) :=
          fun hc => hin ⟨hklen, hc⟩
        by_cases hk0 : 0 < k
        · rw [List.getD_eq_getElem ranges (0, 0) hk1len]
          have hp12 := wf_lohi h hk1len
          have hc12 := wf_lohi h hklen
          by_cases hprev : 0 < k ∧ ranges[k - 1].2 + 1 = value
          · by_cases hnext : k < ranges.length ∧ ranges[k].1 - 1 = value
            · rw [if_pos ⟨hprev, hnext⟩]
              refine wf_splice h [(ranges[k - 1].1, ranges[k].2)] (by omega) (by omega)
                (wf_singleton (by simp only; omega)) ?_ ?_
              · intro p hp a ha hai
                rw [List.mem_singleton] at hp
                subst hp
                exact wf_hi_lt_lo h (by omega) hk1len
              · intro p hp b hb hjb
                rw [List.mem_singleton] at hp
                subst hp
                exact wf_hi_lt_lo h (by omega) hb
            · rw [if_neg (fun hc => hnext hc.2), if_pos hprev]
              have hnext' : ranges[k].1 - 1 ≠ value := fun hc => hnext ⟨hklen, hc⟩
              have hvlo := add_gap_above h hk2 hklen hin' hnext'
              refine wf_splice h [(ranges[k - 1].1, value)] (by omega) (by omega)
                (wf_singleton (by simp only; omega)) ?_ ?_
              · intro p hp a ha hai
                rw [List.mem_singleton] at hp
                subst hp
                exact wf_hi_lt_lo h (by omega) hk1len
              · intro p hp b hb hjb
                rw [List.mem_singleton] at hp
                subst hp
                simp only
                exact hvlo b hb (by omega)
          · rw [if_neg (fun hc => hprev hc.1), if_neg hprev]
            have hhiv := add_gap_below h hkle hk1
              (fun hc => hprev ⟨hc.1, hc.2.2 hk1len⟩)
            by_cases hnext : k < ranges.length ∧ ranges[k].1 - 1 = value
            · rw [if_pos hnext]
              refine wf_splice h [(value, ranges[k].2)] (by omega) (by omega)
                (wf_singleton (by simp only; omega)) ?_ ?_
              · intro p hp a ha hai
                rw [List.mem_singleton] at hp
                subst hp
                exact hhiv a ha hai
              · intro p hp b hb hjb
                rw [List.mem_singleton] at hp
                subst hp
                exact wf_hi_lt_lo h (by omega) hb
            · rw [if_neg hnext]
              have hnext' : ranges[k].1 - 1 ≠ value := fun hc => hnext ⟨hklen, hc⟩
              have hvlo := add_gap_above h hk2 hklen hin' hnext'
              refine wf_splice h [(value, value)] (le_refl k) (by omega)
                (wf_singleton (le_refl value)) ?_ ?_
              · intro p hp a ha hai
                rw [List.mem_singleton] at hp
                subst hp
                exact hhiv a ha hai
              · intro p hp b hb hjb
                rw [List.mem_singleton] at hp
                subst hp
                exact hvlo b hb hjb
        · have hk0' : k = 0 := by omega
          rw [if_neg (fun hc => absurd hc.1.1 (by omega)),
            if_neg (fun hc => absurd hc.1 (by omega))]
          by_cases hnext : k < ranges.length ∧ ranges[k].1 - 1 = value
          · rw [if_pos hnext]
            refine wf_splice h [(value, ranges[k].2)] (by omega) (by omega)
              (wf_singleton (by
                have := wf_lohi h hklen
                simp only
                omega)) ?_ ?_
            · intro p hp a ha hai
              omega
            · intro p hp b hb hjb
              rw [List.mem_singleton] at hp
              subst hp
              exact wf_hi_lt_lo h (by omega) hb
          · rw [if_neg hnext]
            have hnext' : ranges[k].1 - 1 ≠ value := fun hc => hnext ⟨hklen, hc⟩
            have hvlo := add_gap_above h hk2 hklen hin' hnext'
            refine wf_splice h [(value, value)] (le_refl k) (by omega)
              (wf_singleton (le_refl value)) ?_ ?_
            · intro p hp a ha hai
              omega
            · intro p hp b hb hjb
              rw [List.mem_singleton] at hp
              subst hp
              exact hvlo b hb hjb
    · have hkeq : k = ranges.length := by omega
      rw [if_neg (fun hc => hklen hc.1)]
      rw [if_neg (fun hc => hklen hc.2.1)]
      by_cases hprev : 0 < k ∧ (ranges.getD (k - 1) (0, 0)).2 + 1 = value
      · rw [if_pos hprev]
        rw [List.getD_eq_getElem ranges (0, 0) hk1len] at hprev ⊢
        have hp12 := wf_lohi h hk1len
        refine wf_splice h [(ranges[k - 1].1, value)] (by omega) (by omega)
          (wf_singleton (by simp only; omega)) ?_ ?_
        · intro p hp a ha hai
          rw [List.mem_singleton] at hp
          subst hp
          exact wf_hi_lt_lo h (by omega) hk1len
        · intro p hp b hb hjb
          omega
      · rw [if_neg hprev, if_neg (fun hc => hklen hc.1)]
        rw [List.getD_eq_getElem ranges (0, 0) hk1len] at hprev
        have hhiv := add_gap_below h hkle hk1
          (fun hc => hprev ⟨hc.1, hc.2.2 hk1len⟩)
        refine wf_splice h [(value, value)] (le_refl k) (by omega)
          (wf_singleton (le_refl value)) ?_ ?_
        · intro p hp a ha hai
          rw [List.mem_singleton] at hp
          subst hp
          exact hhiv a ha hai
        · intro p hp b hb hjb
          omega


theorem discardGo_wf {ranges : Ranges} {value : ℤ} (h : WF ranges) :
    ∀ fuel left right, right ≤ ranges.length →
    WF (discardGo ranges value fuel left right) := by
  intro fuel
  induction fuel with
  | zero =>
    intro left right hlen
    rw [discardGo]
    exact h
  | succ fuel ih =>
    intro left right hlen
    rw [discardGo]
    by_cases hcmp : left < right
    · rw [if_pos hcmp]
      simp only
      set mid := (left + right) / 2 with hmid
      have hmidlen : mid < ranges.length := by omega
      rw [List.getD_eq_getElem ranges (0, 0) hmidlen]
      have hp12 := wf_lohi h hmidlen
      by_cases h1 : value < ranges[mid].1
      · rw [if_pos h1]
        exact ih left mid (by omega)
      · rw [if_neg h1]
        by_cases h2 : value > ranges[mid].2
        · rw [if_pos h2]
          exact ih (mid + 1) right hlen
        · rw [if_neg h2]
          by_cases h3 : ranges[mid].1 = ranges[mid].2
          · rw [if_pos h3]
            have := wf_splice h ([] : Ranges) (by omega : mid ≤ mid + 1) (by omega)
              ⟨fun p hp => absurd hp (List.not_mem_nil p), List.Pairwise.nil⟩
              (fun p hp => absurd hp (List.not_mem_nil p))
              (fun p hp => absurd hp (List.not_mem_nil p))
            simpa using this
          · rw [if_neg h3]
            by_cases h4 : value = ranges[mid].1
            · rw [if_pos h4]
              refine wf_splice h [(ranges[mid].1 + 1, ranges[mid].2)] (by omega) (by omega)
                (wf_singleton (by simp only; omega)) ?_ ?_
              · intro p hp a ha hai
                rw [List.mem_singleton] at hp
                subst hp
                have := wf_hi_lt_lo h hai hmidlen
                simp only
                omega
              · intro p hp b hb hjb
                rw [List.mem_singleton] at hp
                subst hp
                have := wf_hi_lt_lo h (by omega : mid < b) hb
                simp only
                omega
            · rw [if_neg h4]
              by_cases h5 : value = ranges[mid].2
              · rw [if_pos h5]
                refine wf_splice h [(ranges[mid].1, ranges[mid].2 - 1)] (by omega) (by omega)
                  (wf_singleton (by simp only; omega)) ?_ ?_
                · intro p hp a ha hai
                  rw [List.mem_singleton] at hp
                  subst hp
                  have := wf_hi_lt_lo h hai hmidlen
                  simp only
                  omega
                · intro p hp b hb hjb
                  rw [List.mem_singleton] at hp
                  subst hp
                  have := wf_hi_lt_lo h (by omega : mid < b) hb
                  simp only
                  omega
              · rw [if_neg h5]
                refine wf_splice h [(ranges[mid].1, value - 1), (value + 1, ranges[mid].2)]
                  (by omega) (by omega) ?_ ?_ ?_
                · constructor
                  · intro p hp
                    rcases List.mem_cons.1 hp with rfl | hp
                    · simp only
                      omega
                    · rw [List.mem_singleton] at hp
                      subst hp
                      simp only
                      omega
                  · rw [List.pairwise_cons]
                    refine ⟨?_, List.pairwise_singleton _ _⟩
                    intro q hq
                    rw [List.mem_singleton] at hq
                    subst hq
                    simp only
                    omega
                · intro p hp a ha hai
                  have := wf_hi_lt_lo h hai hmidlen
                  rcases List.mem_cons.1 hp with rfl | hp
                  · simp only
                    omega
                  · rw [List.mem_singleton] at hp
                    subst hp
                    simp only
                    omega
                · intro p hp b hb hjb
                  have := wf_hi_lt_lo h (by omega : mid < b) hb
                  rcases List.mem_cons.1 hp with rfl | hp
                  · simp only
                    omega
                  · rw [List.mem_singleton] at hp
                    subst hp
                    simp only
                    omega
    · rw [if_neg hcmp]
      exact h

theorem discard_wf {ranges : Ranges} (h : WF ranges) (value : ℤ) :
    WF (discard ranges value) :=
  discardGo_wf h ranges.length 0 ranges.length (le_refl _)

theorem popFrontGo_wf : ∀ (ranges : Ranges) (n : ℕ), WF ranges →
    WF (popFrontGo ranges n).2 := by
  intro ranges
  induction ranges with
  | nil =>
    intro n _
    cases n with
    | zero =>
      exact ⟨fun p hp => absurd hp (List.not_mem_nil p), List.Pairwise.nil⟩
    | succ m =>
      exact ⟨fun p hp => absurd hp (List.not_mem_nil p), List.Pairwise.nil⟩
  | cons p rest ih =>
    intro n h
    cases n with
    | zero =>
      rw [popFrontGo]
      exact h
    | succ m =>
      rcases p with ⟨s, e⟩
      rw [popFrontGo]
      simp only
      by_cases hc : (m : ℤ) + 1 ≥ e - s + 1
      · rw [if_pos hc]
        exact ih _ (wf_tail h)
      · rw [if_neg hc]
        have hse : s ≤ e := h.1 (s, e) (List.mem_cons_self _ _)
        constructor
        · intro q hq
          rcases List.mem_cons.1 hq with rfl | hq
          · simp only
            omega
          · exact h.1 q (List.mem_cons_of_mem _ hq)
        · rw [List.pairwise_cons]
          refine ⟨?_, (List.pairwise_cons.1 h.2).2⟩
          intro q hq
          have := (List.pairwise_cons.1 h.2).1 q hq
          simp only at this ⊢
          omega

theorem groupRuns_wf : ∀ (l : List ℤ) (start endv : ℤ), start ≤ endv →
    l.Sorted (· < ·) → (∀ x ∈ l, endv < x) →
    WF (groupRuns start endv l) ∧ ∀ p ∈ groupRuns start endv l, start ≤ p.1 := by
  intro l
  induction l with
  | nil =>
    intro start endv hse _ _
    rw [groupRuns]
    refine ⟨wf_singleton hse, ?_⟩
    intro p hp
    rw [List.mem_singleton] at hp
    subst hp
    exact le_refl _
  | cons v rest ih =>
    intro start endv hse hsort hgt
    have hsort2 := hsort.of_cons
    have hgt2 : ∀ x ∈ rest, v < x := (List.sorted_cons.1 hsort).1
    rw [groupRuns]
    by_cases hv : v = endv + 1
    · rw [if_pos hv]
      exact ih start v (by
        have := hgt v (List.mem_cons_self _ _)
        omega) hsort2 hgt2
    · rw [if_neg hv]
      have hvgt : endv < v := hgt v (List.mem_cons_self _ _)
      have hrec := ih v v (le_refl v) hsort2 hgt2
      refine ⟨⟨?_, ?_⟩, ?_⟩
      · intro q hq
        rcases List.mem_cons.1 hq with rfl | hq
        · exact hse
        · exact hrec.1.1 q hq
      · rw [List.pairwise_cons]
        refine ⟨?_, hrec.1.2⟩
        intro q hq
        have := hrec.2 q hq
        omega
      · intro q hq
        rcases List.mem_cons.1 hq with rfl | hq
        · exact le_refl _
        · have := hrec.2 q hq
          omega

theorem from_values_wf (values : List ℤ) : WF (from_values values) := by
  rw [from_values]
  have hsortle : (values.dedup.insertionSort (· ≤ ·)).Sorted (· ≤ ·) :=
    List.sorted_insertionSort _ _
  have hnodup : (values.dedup.insertionSort (· ≤ ·)).Nodup :=
    (List.perm_insertionSort (· ≤ ·) values.dedup).nodup_iff.2 (List.nodup_dedup values)
  have hsort : (values.dedup.insertionSort (· ≤ ·)).Sorted (· < ·) := by
    rw [List.Sorted]
    exact (List.Pairwise.and hsortle hnodup).imp (fun hab => lt_of_le_of_ne hab.1 hab.2)
  rcases hl : values.dedup.insertionSort (· ≤ ·) with _ | ⟨v, rest⟩
  · exact ⟨fun p hp => absurd hp (List.not_mem_nil p), List.Pairwise.nil⟩
  · rw [hl] at hsort
    exact (groupRuns_wf rest v v (le_refl v) hsort.of_cons
      (List.sorted_cons.1 hsort).1).1

theorem union_wf {a b : Ranges} (ha : WF a) (hb : WF b) : WF (union a b) :=
  (union_spec ha hb).1

end RangeSet

theorem save_fail1 {st : SrvState} {work_id : ℤ} {ok2 : Bool} :
    save_work_data st work_id false ok2 = (st, false) := by
  rw [save_work_data]
  simp

theorem save_dup {st : SrvState} {work_id : ℤ} {ok2 : Bool}
    (h : work_id ∈ st.completed) :
    save_work_data st work_id true ok2 =
      ({ st with writes := st.writes ++ [FileWrite.res work_id] }, true) := by
  rw [save_work_data]
  simp [h]

theorem save_fail2 {st : SrvState} {work_id : ℤ}
    (h : work_id ∉ st.completed) :
    save_work_data st work_id true false =
      ({ st with writes := st.writes ++ [FileWrite.res work_id] }, false) := by
  rw [save_work_data]
  simp [h]

theorem save_ok {st : SrvState} {work_id : ℤ}
    (h : work_id ∉ st.completed) :
    save_work_data st work_id true true =
      ({ st with
          writes := st.writes ++ [FileWrite.res work_id, FileWrite.pub work_id],
          completed := insert work_id st.completed,
          assigned := st.assigned.erase work_id }, true) := by
  rw [save_work_data]
  simp [h]

theorem count_append_res {ws : List FileWrite} {work_id : ℤ} :
    (ws ++ [FileWrite.res work_id]).count (FileWrite.pub work_id) =
      ws.count (FileWrite.pub work_id) ∧
    (ws ++ [FileWrite.res work_id]).count (FileWrite.res work_id) =
      ws.count (FileWrite.res work_id) + 1 := by
  constructor
  · rw [List.count_append]
    simp [List.count_cons]
  · rw [List.count_append]
    simp [List.count_cons]

theorem count_append_res_pub {ws : List FileWrite} {work_id : ℤ} :
    (ws ++ [FileWrite.res work_id, FileWrite.pub work_id]).count
      (FileWrite.pub work_id) = ws.count (FileWrite.pub work_id) + 1 ∧
    (ws ++ [FileWrite.res work_id, FileWrite.pub work_id]).count
      (FileWrite.res work_id) = ws.count (FileWrite.res work_id) + 1 := by
  constructor
  · rw [List.count_append]
    simp [List.count_cons]
  · rw [List.count_append]
    simp [List.count_cons]

theorem precOk_append_res {work_id : ℤ} {ws : List FileWrite}
    (h : PrecOk work_id ws) :
    PrecOk work_id (ws ++ [FileWrite.res work_id]) := by
  intro i hi hp
  have hlen : (ws ++ [FileWrite.res work_id]).length = ws.length + 1 := by
    simp
  by_cases hilt : i < ws.length
  · rw [List.getElem_append i hi] at hp
    rw [dif_pos hilt] at hp
    obtain ⟨j, hj, hji, hres⟩ := h i hilt hp
    refine ⟨j, by omega, hji, ?_⟩
    rw [List.getElem_append j (by omega)]
    rw [dif_pos hj]
    exact hres
  · exfalso
    have hieq : i = ws.length := by omega
    rw [List.getElem_append i hi, dif_neg hilt] at hp
    subst hieq
    simp at hp


theorem precOk_append_res_pub {work_id : ℤ} {ws : List FileWrite}
    (h : PrecOk work_id ws) :
    PrecOk work_id (ws ++ [FileWrite.res work_id, FileWrite.pub work_id]) := by
  intro i hi hp
  have hlen : (ws ++ [FileWrite.res work_id, FileWrite.pub work_id]).length =
      ws.length + 2 := by simp
  by_cases hilt : i < ws.length
  · rw [List.getElem_append i hi, dif_pos hilt] at hp
    obtain ⟨j, hj, hji, hres⟩ := h i hilt hp
    refine ⟨j, by omega, hji, ?_⟩
    rw [List.getElem_append j (by omega), dif_pos hj]
    exact hres
  · by_cases hieq : i = ws.length
    · exfalso
      rw [List.getElem_append i hi, dif_neg hilt] at hp
      subst hieq
      simp at hp
    · have hieq2 : i = ws.length + 1 := by omega
      refine ⟨ws.length, by omega, by omega, ?_⟩
      rw [List.getElem_append ws.length (by omega), dif_neg (by omega)]
      simp

theorem save_step_inv (st : SrvState) (work_id : ℤ) (ok1 ok2 : Bool)
    (hJ : st.writes.count (FileWrite.pub work_id) =
      if work_id ∈ st.completed then 1 else 0)
    (hP : PrecOk work_id st.writes) :
    ((save_work_data st work_id ok1 ok2).1.writes.count (FileWrite.pub work_id) =
      if work_id ∈ (save_work_data st work_id ok1 ok2).1.completed then 1 else 0) ∧
    (work_id ∈ (save_work_data st work_id ok1 ok2).1.completed ↔
      work_id ∈ st.completed ∨ (save_work_data st work_id ok1 ok2).2 = true) ∧
    ((save_work_data st work_id ok1 ok2).1.writes.count (FileWrite.res work_id) =
      st.writes.count (FileWrite.res work_id) + (if ok1 then 1 else 0)) ∧
    ((save_work_data st work_id ok1 ok2).2 = true → ok1 = true) ∧
    PrecOk work_id (save_work_data st work_id ok1 ok2).1.writes := by
  cases ok1 with
  | false =>
    rw [save_fail1]
    simp only
    refine ⟨hJ, by simp, by simp, by simp, hP⟩
  | true =>
    by_cases hmem : work_id ∈ st.completed
    · rw [save_dup hmem]
      simp only
      refine ⟨?_, by simp [hmem], ?_, by simp, precOk_append_res hP⟩
      · rw [count_append_res.1, hJ]
      · rw [count_append_res.2]
        simp
    · cases ok2 with
      | false =>
        rw [save_fail2 hmem]
        simp only
        refine ⟨?_, by simp [hmem], ?_, by simp, precOk_append_res hP⟩
        · rw [count_append_res.1, hJ]
        · rw [count_append_res.2]
          simp
      | true =>
        rw [save_ok hmem]
        simp only
        refine ⟨?_, by simp, ?_, by simp, precOk_append_res_pub hP⟩
        · rw [count_append_res_pub.1, hJ]
          simp [hmem]
        · rw [count_append_res_pub.2]
          simp

theorem runSaves_spec (work_id : ℤ) : ∀ (ocs : List (Bool × Bool)) (st : SrvState),
    (st.writes.count (FileWrite.pub work_id) =
      if work_id ∈ st.completed then 1 else 0) →
    PrecOk work_id st.writes →
    ((runSaves st work_id ocs).1.writes.count (FileWrite.pub work_id) =
      if work_id ∈ (runSaves st work_id ocs).1.completed then 1 else 0) ∧
    (work_id ∈ (runSaves st work_id ocs).1.completed ↔
      work_id ∈ st.completed ∨ true ∈ (runSaves st work_id ocs).2) ∧
    ((runSaves st work_id ocs).1.writes.count (FileWrite.res work_id) =
      st.writes.count (FileWrite.res work_id) + ocs.countP (fun oc => oc.1)) ∧
    List.Forall₂ (fun ok oc => ok = true → oc.1 = true)
      (runSaves st work_id ocs).2 ocs ∧
    PrecOk work_id (runSaves st work_id ocs).1.writes := by
  intro ocs
  induction ocs with
  | nil =>
    intro st hJ hP
    rw [runSaves]
    refine ⟨hJ, by simp, by simp, List.Forall₂.nil, hP⟩
  | cons oc rest ih =>
    intro st hJ hP
    have hstep := save_step_inv st work_id oc.1 oc.2 hJ hP
    have hrec := ih (save_work_data st work_id oc.1 oc.2).1 hstep.1 hstep.2.2.2.2
    rw [runSaves]
    simp only
    refine ⟨hrec.1, ?_, ?_, List.Forall₂.cons hstep.2.2.2.1 hrec.2.2.2.1,
      hrec.2.2.2.2⟩
    · rw [hrec.2.1, List.mem_cons]
      rw [hstep.2.1]
      constructor
      · rintro ((h | h) | h)
        · exact Or.inl h
        · exact Or.inr (Or.inl h.symm)
        · exact Or.inr (Or.inr h)
      · rintro (h | h | h)
        · exact Or.inl (Or.inl h)
        · exact Or.inl (Or.inr h.symm)
        · exact Or.inr h
    · rw [hrec.2.2.1, hstep.2.2.1, List.countP_cons]
      cases hoc : oc.1
      · simp
      · simp
        omega

theorem getBatchGo_eq : ∀ (n : ℕ) (q : List ℤ) (a : Finset ℤ),
    getBatchGo q a n = (q.take n, q.drop n, a ∪ (q.take n).toFinset) := by
  intro n
  induction n with
  | zero =>
    intro q a
    rw [getBatchGo]
    simp
  | succ m ih =>
    intro q a
    cases q with
    | nil =>
      rw [getBatchGo]
      simp
    | cons w rest =>
      rw [getBatchGo]
      rw [ih rest (insert w a)]
      refine Prod.ext rfl (Prod.ext rfl ?_)
      simp only [List.take_succ_cons, List.toFinset_cons]
      rw [Finset.union_insert, Finset.insert_union]

theorem batch_inv (st : SrvState) (n : ℕ) (hInv : SrvInv st) :
    SrvInv (get_work_batch st n).1 := by
  obtain ⟨hA, hB, hC, hD⟩ := hInv
  rw [get_work_batch, getBatchGo_eq]
  simp only
  have hsplit := List.take_append_drop (min n st.available_queue.length)
    st.available_queue
  have hnd : st.available_queue.Nodup := hC
  rw [← hsplit] at hnd
  rw [List.nodup_append] at hnd
  refine ⟨?_, ?_, ?_, ?_⟩
  · intro x hx
    rcases Finset.mem_union.1 hx with hx | hx
    · exact hA x hx
    · rw [List.mem_toFinset] at hx
      have := hB x (List.mem_of_mem_take hx)
      exact ⟨this.1, this.2.1⟩
  · intro q hq
    have hqfull := hB q (List.mem_of_mem_drop hq)
    refine ⟨hqfull.1, hqfull.2.1, ?_⟩
    intro hqin
    rcases Finset.mem_union.1 hqin with hx | hx
    · exact hqfull.2.2 hx
    · rw [List.mem_toFinset] at hx
      exact (List.disjoint_left.1 hnd.2.2) hx hq
  · exact hC.sublist (List.drop_sublist _ _)
  · intro q hq
    exact hD q (List.mem_of_mem_drop hq)

theorem save_inv (st : SrvState) (work_id : ℤ) (ok1 ok2 : Bool)
    (hmem : work_id ∈ st.assigned) (hInv : SrvInv st) :
    SrvInv (save_work_data st work_id ok1 ok2).1 := by
  obtain ⟨hA, hB, hC, hD⟩ := hInv
  have hnc : work_id ∉ st.completed := (hA work_id hmem).1
  cases ok1 with
  | false =>
    rw [save_fail1]
    exact ⟨hA, hB, hC, hD⟩
  | true =>
    cases ok2 with
    | false =>
      rw [save_fail2 hnc]
      exact ⟨hA, hB, hC, hD⟩
    | true =>
      rw [save_ok hnc]
      refine ⟨?_, ?_, hC, hD⟩
      · intro x hx
        simp only at hx
        have hxa : x ∈ st.assigned := Finset.mem_of_mem_erase hx
        have hxne : x ≠ work_id := Finset.ne_of_mem_erase hx
        refine ⟨?_, (hA x hxa).2⟩
        intro hxc
        rcases Finset.mem_insert.1 hxc with h | h
        · exact hxne h
        · exact (hA x hxa).1 h
      · intro q hq
        simp only at hq ⊢
        have hqfull := hB q hq
        have hqne : q ≠ work_id := by
          intro h
          subst h
          exact hqfull.2.2 hmem
        refine ⟨?_, hqfull.2.1, ?_⟩
        · intro hqc
          rcases Finset.mem_insert.1 hqc with h | h
          · exact hqne h
          · exact hqfull.1 h
        · intro hqa
          exact hqfull.2.2 (Finset.mem_of_mem_erase hqa)

theorem markPriv_inv (st : SrvState) (work_id : ℤ) (ok1 : Bool)
    (hmem : work_id ∈ st.assigned) (hInv : SrvInv st) :
    SrvInv (mark_private st work_id ok1).1 := by
  obtain ⟨hA, hB, hC, hD⟩ := hInv
  rw [mark_private]
  by_cases hp : work_id ∈ st.priv
  · rw [if_pos hp]
    exact ⟨hA, hB, hC, hD⟩
  · rw [if_neg hp]
    cases ok1 with
    | false =>
      simp only [Bool.not_false, if_pos]
      exact ⟨hA, hB, hC, hD⟩
    | true =>
      simp only [Bool.not_true]
      rw [if_neg (by simp)]
      refine ⟨?_, ?_, hC, hD⟩
      · intro x hx
        simp only at hx
        have hxa : x ∈ st.assigned := Finset.mem_of_mem_erase hx
        have hxne : x ≠ work_id := Finset.ne_of_mem_erase hx
        refine ⟨(hA x hxa).1, ?_⟩
        intro hxc
        rcases Finset.mem_insert.1 hxc with h | h
        · exact hxne h
        · exact (hA x hxa).2 h
      · intro q hq
        simp only at hq ⊢
        have hqfull := hB q hq
        have hqne : q ≠ work_id := by
          intro h
          subst h
          exact hqfull.2.2 hmem
        refine ⟨hqfull.1, ?_, ?_⟩
        · intro hqc
          rcases Finset.mem_insert.1 hqc with h | h
          · exact hqne h
          · exact hqfull.2.1 h
        · intro hqa
          exact hqfull.2.2 (Finset.mem_of_mem_erase hqa)

theorem refill_inv (cfg : SrvConfig) (st : SrvState) (hInv : SrvInv st) :
    SrvInv (refillStep cfg st) := by
  obtain ⟨hA, hB, hC, hD⟩ := hInv
  rw [refillStep]
  by_cases hg : st.available_queue.length < QUEUE_MIN_SIZE ∧
      st.last_queued_id < cfg.end_id
  · rw [if_pos hg]
    simp only
    set s := st.last_queued_id + 1 with hs
    set e := min (s + QUEUE_BUMP_SIZE - 1) cfg.end_id with he
    set new_ids := (intRange s (e + 1)).filter
      (fun v => !(decide (v ∈ st.completed) || decide (v ∈ st.priv) ||
        decide (v ∈ st.assigned))) with hnew
    have hse : st.last_queued_id < e := by
      rw [he, hs]
      rcases min_choice (st.last_queued_id + 1 + QUEUE_BUMP_SIZE - 1) cfg.end_id
        with hm | hm
      · rw [hm, QUEUE_BUMP_SIZE]
        omega
      · rw [hm]
        exact hg.2
    have hnewmem : ∀ v ∈ new_ids, (s ≤ v ∧ v ≤ e) ∧ v ∉ st.completed ∧
        v ∉ st.priv ∧ v ∉ st.assigned := by
      intro v hv
      rw [hnew, List.mem_filter] at hv
      have h1 := RangeSet.mem_intRange.1 hv.1
      have h2 := hv.2
      rw [Bool.not_eq_true'] at h2
      rw [Bool.or_eq_false_iff, Bool.or_eq_false_iff] at h2
      rw [decide_eq_false_iff_not, decide_eq_false_iff_not,
        decide_eq_false_iff_not] at h2
      exact ⟨⟨by omega, by omega⟩, h2.1.1, h2.1.2, h2.2⟩
    refine ⟨hA, ?_, ?_, ?_⟩
    · intro q hq
      rcases List.mem_append.1 hq with hq | hq
      · exact hB q hq
      · have := hnewmem q hq
        exact this.2
    · rw [List.nodup_append]
      refine ⟨hC, List.Nodup.filter _ (RangeSet.intRange_nodup s (e + 1)), ?_⟩
      rw [List.disjoint_left]
      intro q hq1 hq2
      have h1 := hD q hq1
      have h2 := (hnewmem q hq2).1
      rw [hs] at h2
      omega
    · intro q hq
      show q ≤ e
      rcases List.mem_append.1 hq with hq | hq
      · have := hD q hq
        omega
      · exact (hnewmem q hq).1.2
  · rw [if_neg hg]
    exact ⟨hA, hB, hC, hD⟩

theorem step_inv (cfg : SrvConfig) {st st' : SrvState}
    (h : Step cfg st st') (hInv : SrvInv st) : SrvInv st' := by
  cases h with
  | batch n => exact batch_inv st n hInv
  | save work_id ok1 ok2 hmem => exact save_inv st work_id ok1 ok2 hmem hInv
  | markPriv work_id ok1 hmem => exact markPriv_inv st work_id ok1 hmem hInv
  | refill => exact refill_inv cfg st hInv

theorem load_state_inv (cfg : SrvConfig) (pub_lines priv_lines : List (Option ℤ)) :
    SrvInv (load_state cfg pub_lines priv_lines) := by
  rw [load_state]
  refine ⟨?_, ?_, ?_, ?_⟩
  · intro x hx
    exact absurd hx (Finset.not_mem_empty x)
  · intro q hq
    exact absurd hq (List.not_mem_nil q)
  · exact List.nodup_nil
  · intro q hq
    exact absurd hq (List.not_mem_nil q)

theorem scanNext_spec (u : Finset ℤ) : ∀ (fuel : ℕ) (cur : ℤ),
    (u.filter (cur ≤ ·)).card < fuel →
    (scanNext u cur fuel ∉ u ∧ cur ≤ scanNext u cur fuel ∧
     ∀ k, cur ≤ k → k < scanNext u cur fuel → k ∈ u) := by
  intro fuel
  induction fuel with
  | zero =>
    intro cur h
    exact absurd h (Nat.not_lt_zero _)
  | succ fuel ih =>
    intro cur h
    rw [scanNext]
    by_cases hc : cur ∈ u
    · rw [if_pos hc]
      have hsub : insert cur (u.filter ((cur + 1) ≤ ·)) ⊆ u.filter (cur ≤ ·) := by
        intro x hx
        rcases Finset.mem_insert.1 hx with rfl | hx
        · exact Finset.mem_filter.2 ⟨hc, le_refl _⟩
        · have hx2 := Finset.mem_filter.1 hx
          refine Finset.mem_filter.2 ⟨hx2.1, ?_⟩
          have := hx2.2
          simp only at this ⊢
          omega
      have hcur : cur ∉ u.filter ((cur + 1) ≤ ·) := by
        intro hx
        have := (Finset.mem_filter.1 hx).2
        simp only at this
        omega
      have hcard : (u.filter ((cur + 1) ≤ ·)).card < fuel := by
        have hle := Finset.card_le_card hsub
        rw [Finset.card_insert_of_not_mem hcur] at hle
        omega
      obtain ⟨h1, h2, h3⟩ := ih (cur + 1) hcard
      refine ⟨h1, by omega, ?_⟩
      intro k hk1 hk2
      rcases eq_or_lt_of_le hk1 with rfl | hk
      · exact hc
      · exact h3 k (by omega) hk2
    · rw [if_neg hc]
      exact ⟨hc, le_refl _, fun k hk1 hk2 => absurd hk1 (by omega)⟩

/-!
The claims.  Each claim of the specification is settled by exactly one
theorem below (plus, where required, a closed witness or counterexample).
-/

/-- Claim C1: for every sequence of `save_work_data` calls naming one id,
starting from a state where the id is not in `completed` and has no
`public.txt` line, (i) `public.txt` ends up with exactly one line for the id
iff some call succeeded, (ii) each call whose `results.jsonl` append succeeds
— in particular each successful call — appends exactly one record there,
and (iii) every `public.txt` append in the journal is preceded, in write
order, by a `results.jsonl` append for that id.  (Calls are serialized by
the store lock; the per-prefix instances of (i) say the line is written by
the first successful call.) -/
theorem claim_C1_submit_order (st : SrvState) (work_id : ℤ)
    (ocs : List (Bool × Bool)) (h1 : work_id ∉ st.completed)
    (h2 : st.writes.count (FileWrite.pub work_id) = 0) :
    ((runSaves st work_id ocs).1.writes.count (FileWrite.pub work_id) =
      if true ∈ (runSaves st work_id ocs).2 then 1 else 0) ∧
    ((runSaves st work_id ocs).1.writes.count (FileWrite.res work_id) =
      st.writes.count (FileWrite.res work_id) + ocs.countP (fun oc => oc.1)) ∧
    List.Forall₂ (fun ok oc => ok = true → oc.1 = true)
      (runSaves st work_id ocs).2 ocs ∧
    PrecOk work_id (runSaves st work_id ocs).1.writes := by
  have hJ : st.writes.count (FileWrite.pub work_id) =
      if work_id ∈ st.completed then 1 else 0 := by
    rw [h2, if_neg h1]
  have hP : PrecOk work_id st.writes := by
    intro i hi hp
    exfalso
    have hmem : FileWrite.pub work_id ∈ st.writes := by
      rw [← hp]
      exact List.getElem_mem hi
    rw [← List.count_pos_iff] at hmem
    omega
  obtain ⟨j1, j2, j3, j4, j5⟩ := runSaves_spec work_id ocs st hJ hP
  refine ⟨?_, j3, j4, j5⟩
  rw [j1]
  by_cases ht : true ∈ (runSaves st work_id ocs).2
  · rw [if_pos (j2.2 (Or.inr ht)), if_pos ht]
  · rw [if_neg ?_, if_neg ht]
    intro hc
    rcases j2.1 hc with h | h
    · exact h1 h
    · exact ht h

/-- Witness for C1 at a concrete run: one successful call writes the single
public line. -/
theorem claim_C1_witness :
    (runSaves ⟨∅, ∅, ∅, [], 0, []⟩ 5 [(true, true)]).1.writes.count
      (FileWrite.pub 5) =
    (if true ∈ (runSaves ⟨∅, ∅, ∅, [], 0, []⟩ 5 [(true, true)]).2
      then 1 else 0) :=
  (claim_C1_submit_order ⟨∅, ∅, ∅, [], 0, []⟩ 5 [(true, true)]
    (by decide) (by decide)).1

/-- Claim C2: on a well-formed RangeSet, `filter_range R lo hi` is the
ascending sorted list of the values in `[lo, hi]` not in `R` (stated by
membership, which together with strict sortedness determines the list), and
it is empty whenever `lo > hi`. -/
theorem claim_C2_filter_range (R : RangeSet.Ranges) (lo hi : ℤ)
    (h : RangeSet.WF R) :
    (∀ v : ℤ, v ∈ RangeSet.filter_range R lo hi ↔
      (lo ≤ v ∧ v ≤ hi ∧ RangeSet.contains R v = false)) ∧
    (RangeSet.filter_range R lo hi).Sorted (· < ·) ∧
    (hi < lo → RangeSet.filter_range R lo hi = []) :=
  RangeSet.filter_range_law R lo hi h

/-- Witness for C2 on the spec's S6 RangeSet. -/
theorem claim_C2_witness :
    (∀ v : ℤ, v ∈ RangeSet.filter_range [(1, 3), (5, 5), (7, 9)] 1 10 ↔
      (1 ≤ v ∧ v ≤ 10 ∧
        RangeSet.contains [(1, 3), (5, 5), (7, 9)] v = false)) ∧
    (RangeSet.filter_range [(1, 3), (5, 5), (7, 9)] 1 10).Sorted (· < ·) ∧
    ((10 : ℤ) < 1 → RangeSet.filter_range [(1, 3), (5, 5), (7, 9)] 1 10 = []) :=
  claim_C2_filter_range [(1, 3), (5, 5), (7, 9)] 1 10 (by decide)

/-- Claim C3 counterexample: the disjointness fails as stated.  A legal
interleaving — producer refill, then a `/work-completed` submission naming
id 1 while id 1 is still queued (not assigned), then a `/work-batch`
dequeue — reaches a state with id 1 in both `assigned` and `completed`. -/
theorem claim_C3_counterexample :
    (1 : ℤ) ∈ (get_work_batch (save_work_data (refillStep ⟨1, 10⟩
      (load_state ⟨1, 10⟩ [] [])) 1 true true).1 10).1.assigned ∧
    (1 : ℤ) ∈ (get_work_batch (save_work_data (refillStep ⟨1, 10⟩
      (load_state ⟨1, 10⟩ [] [])) 1 true true).1 10).1.completed := by
  constructor
  · decide
  · decide

/-- Claim C3 (amended): in every state reachable from recovery by serialized
`get_work_batch`, `save_work_data`, `mark_private` and producer-refill
actions in which each submission names an id currently in `assigned`, the
`assigned` set is disjoint from `completed ∪ private`. -/
theorem claim_C3_assigned_disjoint (cfg : SrvConfig)
    (pub_lines priv_lines : List (Option ℤ)) (st : SrvState)
    (h : Relation.ReflTransGen (Step cfg) (load_state cfg pub_lines priv_lines) st) :
    ∀ work_id ∈ st.assigned, work_id ∉ st.completed ∧ work_id ∉ st.priv := by
  have hInv : SrvInv st := by
    induction h with
    | refl => exact load_state_inv cfg pub_lines priv_lines
    | tail _ hbc ih => exact step_inv cfg hbc ih
  exact fun work_id hid => hInv.1 work_id hid

/-- Witness for the amended C3 on a reachable two-step state. -/
theorem claim_C3_witness :
    (1 : ℤ) ∉ (get_work_batch (refillStep ⟨1, 10⟩
      (load_state ⟨1, 10⟩ [] [])) 10).1.completed ∧
    (1 : ℤ) ∉ (get_work_batch (refillStep ⟨1, 10⟩
      (load_state ⟨1, 10⟩ [] [])) 10).1.priv :=
  claim_C3_assigned_disjoint ⟨1, 10⟩ [] []
    (get_work_batch (refillStep ⟨1, 10⟩ (load_state ⟨1, 10⟩ [] [])) 10).1
    (Relation.ReflTransGen.tail
      (Relation.ReflTransGen.tail Relation.ReflTransGen.refl
        (Step.refill (load_state ⟨1, 10⟩ [] [])))
      (Step.batch (refillStep ⟨1, 10⟩ (load_state ⟨1, 10⟩ [] [])) 10))
    1 (by decide)

/-- Claim C4: when an append/fsync fails during `save_work_data` (either
write) or `mark_private`, the endpoint answers 500 and the in-memory sets
`completed`, `private`, `assigned` are exactly as before the call; in
particular the id stays in `assigned`. -/
theorem claim_C4_io_error (st : SrvState) (work_id : ℤ) (ok1 ok2 : Bool) :
    ((ok1 = false ∨ (work_id ∉ st.completed ∧ ok2 = false)) →
      ((submit_completed_work st work_id ok1 ok2).2 = 500 ∧
       (submit_completed_work st work_id ok1 ok2).1.completed = st.completed ∧
       (submit_completed_work st work_id ok1 ok2).1.priv = st.priv ∧
       (submit_completed_work st work_id ok1 ok2).1.assigned = st.assigned ∧
       (work_id ∈ st.assigned →
         work_id ∈ (submit_completed_work st work_id ok1 ok2).1.assigned))) ∧
    ((work_id ∉ st.priv ∧ ok1 = false) →
      ((submit_private_work st work_id ok1).2 = 500 ∧
       (submit_private_work st work_id ok1).1.completed = st.completed ∧
       (submit_private_work st work_id ok1).1.priv = st.priv ∧
       (submit_private_work st work_id ok1).1.assigned = st.assigned ∧
       (work_id ∈ st.assigned →
         work_id ∈ (submit_private_work st work_id ok1).1.assigned))) := by
  constructor
  · intro hfail
    rw [submit_completed_work]
    rcases hfail with hfail | ⟨hnc, hfail⟩
    · subst hfail
      rw [save_fail1]
      exact ⟨rfl, rfl, rfl, rfl, fun h => h⟩
    · subst hfail
      cases ok1 with
      | false =>
        rw [save_fail1]
        exact ⟨rfl, rfl, rfl, rfl, fun h => h⟩
      | true =>
        rw [save_fail2 hnc]
        exact ⟨rfl, rfl, rfl, rfl, fun h => h⟩
  · rintro ⟨hnp, hfail⟩
    subst hfail
    rw [submit_private_work, mark_private, if_neg hnp]
    simp

/-- Witness for C4: a failed first append for an assigned id yields 500 and
leaves the sets alone. -/
theorem claim_C4_witness :
    (((submit_completed_work ⟨∅, ∅, {5}, [], 0, []⟩ 5 false true).2 = 500 ∧
      (submit_completed_work ⟨∅, ∅, {5}, [], 0, []⟩ 5 false true).1.completed =
        (⟨∅, ∅, {5}, [], 0, []⟩ : SrvState).completed ∧
      (submit_completed_work ⟨∅, ∅, {5}, [], 0, []⟩ 5 false true).1.priv =
        (⟨∅, ∅, {5}, [], 0, []⟩ : SrvState).priv ∧
      (submit_completed_work ⟨∅, ∅, {5}, [], 0, []⟩ 5 false true).1.assigned =
        (⟨∅, ∅, {5}, [], 0, []⟩ : SrvState).assigned ∧
      ((5 : ℤ) ∈ (⟨∅, ∅, {5}, [], 0, []⟩ : SrvState).assigned →
        (5 : ℤ) ∈ (submit_completed_work ⟨∅, ∅, {5}, [], 0, []⟩
          5 false true).1.assigned))) ∧
    (((submit_private_work ⟨∅, ∅, {5}, [], 0, []⟩ 5 false).2 = 500 ∧
      (submit_private_work ⟨∅, ∅, {5}, [], 0, []⟩ 5 false).1.completed =
        (⟨∅, ∅, {5}, [], 0, []⟩ : SrvState).completed ∧
      (submit_private_work ⟨∅, ∅, {5}, [], 0, []⟩ 5 false).1.priv =
        (⟨∅, ∅, {5}, [], 0, []⟩ : SrvState).priv ∧
      (submit_private_work ⟨∅, ∅, {5}, [], 0, []⟩ 5 false).1.assigned =
        (⟨∅, ∅, {5}, [], 0, []⟩ : SrvState).assigned ∧
      ((5 : ℤ) ∈ (⟨∅, ∅, {5}, [], 0, []⟩ : SrvState).assigned →
        (5 : ℤ) ∈ (submit_private_work ⟨∅, ∅, {5}, [], 0, []⟩
          5 false).1.assigned))) :=
  ⟨(claim_C4_io_error ⟨∅, ∅, {5}, [], 0, []⟩ 5 false true).1 (Or.inl rfl),
   (claim_C4_io_error ⟨∅, ∅, {5}, [], 0, []⟩ 5 false true).2 ⟨by decide, rfl⟩⟩

/-- Claim C5 counterexample: when `public.txt` already records `start_id`
itself, the cursor is NOT `start_id − 1`: with `start_id = 1` and a public
log containing `1`, recovery sets `last_queued_id = 1`, not `0`. -/
theorem claim_C5_counterexample :
    ¬ ((load_state ⟨1, 10⟩ [some 1] []).last_queued_id = 1 - 1) := by
  decide

/-- Claim C5 (amended): after the recovery scan, `last_queued_id` equals
`n − 1` where `n` is the smallest id ≥ `start_id` recorded in neither log —
which is `start_id − 1` exactly when `start_id` itself is unrecorded. -/
theorem claim_C5_cursor (cfg : SrvConfig) (pub_lines priv_lines : List (Option ℤ)) :
    cfg.start_id ≤ (load_state cfg pub_lines priv_lines).last_queued_id + 1 ∧
    (load_state cfg pub_lines priv_lines).last_queued_id + 1 ∉
      ((load_state cfg pub_lines priv_lines).completed ∪
        (load_state cfg pub_lines priv_lines).priv) ∧
    (∀ k : ℤ, cfg.start_id ≤ k →
      k ≤ (load_state cfg pub_lines priv_lines).last_queued_id →
      k ∈ ((load_state cfg pub_lines priv_lines).completed ∪
        (load_state cfg pub_lines priv_lines).priv)) := by
  rw [load_state]
  simp only
  set u := pub_lines.reduceOption.toFinset ∪ priv_lines.reduceOption.toFinset
    with hu
  have hcard : (u.filter (cfg.start_id ≤ ·)).card < u.card + 1 :=
    lt_of_le_of_lt (Finset.card_filter_le u _) (by omega)
  obtain ⟨h1, h2, h3⟩ := scanNext_spec u (u.card + 1) cfg.start_id hcard
  refine ⟨by omega, ?_, ?_⟩
  · have heq : scanNext u cfg.start_id (u.card + 1) - 1 + 1 =
        scanNext u cfg.start_id (u.card + 1) := by omega
    rw [heq]
    exact h1
  · intro k hk1 hk2
    exact h3 k hk1 (by omega)

/-- Claim C6 (the code as written): with `output/results_0.jsonl`,
`output/results_0.jsonl.gz` and `/etc/passwd` present, a non-`.gz` filename
and a traversal filename both delete nothing but answer HTTP 500 — not the
400 the handler tries to raise, because its blanket `except Exception`
catches the `HTTPException(400)` and re-raises 500 — while a plain `.gz`
filename in the output directory is deleted with 200. -/
theorem claim_C6_cleanup_eval :
    (cleanup_file "output"
      (fun p => decide (p ∈ [parsePath "output/results_0.jsonl",
        parsePath "output/results_0.jsonl.gz", parsePath "output/../etc/passwd"]))
      "results_0.jsonl" = (500, none)) ∧
    (cleanup_file "output"
      (fun p => decide (p ∈ [parsePath "output/results_0.jsonl",
        parsePath "output/results_0.jsonl.gz", parsePath "output/../etc/passwd"]))
      "../etc/passwd" = (500, none)) ∧
    (cleanup_file "output"
      (fun p => decide (p ∈ [parsePath "output/results_0.jsonl",
        parsePath "output/results_0.jsonl.gz", parsePath "output/../etc/passwd"]))
      "results_0.jsonl.gz" = (200, some (parsePath "output/results_0.jsonl.gz"))) := by
  refine ⟨?_, ?_, ?_⟩
  · decide
  · decide
  · decide

/-- Claim C7: scenario S2.  With `public.txt` = 1,3,5 and `private.txt` = 2
over `[1, 10]`, the first `/work-batch?batch_size=10` after a refill returns
exactly `[4, 6, 7, 8, 9, 10]`, ascending. -/
theorem claim_C7_first_batch :
    (get_work_batch (refillStep ⟨1, 10⟩
      (load_state ⟨1, 10⟩ [some 1, some 3, some 5] [some 2])) 10).2 =
    [4, 6, 7, 8, 9, 10] := by
  decide

/-- Claim C8: on well-formed RangeSets, union is commutative as interval
lists, and membership in the union is the disjunction of memberships. -/
theorem claim_C8_union_comm (A B : RangeSet.Ranges)
    (hA : RangeSet.WF A) (hB : RangeSet.WF B) :
    RangeSet.union A B = RangeSet.union B A ∧
    ∀ v : ℤ, RangeSet.contains (RangeSet.union A B) v =
      (RangeSet.contains A v || RangeSet.contains B v) := by
  have hAB := RangeSet.union_spec hA hB
  have hBA := RangeSet.union_spec hB hA
  constructor
  · exact RangeSet.canonical _ _ hAB.1 hBA.1
      (fun v => by rw [hAB.2 v, hBA.2 v]; exact or_comm)
  · intro v
    rw [RangeSet.contains_eq_memb hAB.1, RangeSet.contains_eq_memb hA,
      RangeSet.contains_eq_memb hB]
    rw [Bool.eq_iff_iff, Bool.or_eq_true, RangeSet.memb_eq_true_iff,
      RangeSet.memb_eq_true_iff, RangeSet.memb_eq_true_iff]
    exact hAB.2 v

/-- Witness for C8 on overlapping concrete sets. -/
theorem claim_C8_witness :
    RangeSet.union [(1, 3)] [(2, 5)] = RangeSet.union [(2, 5)] [(1, 3)] ∧
    ∀ v : ℤ, RangeSet.contains (RangeSet.union [(1, 3)] [(2, 5)]) v =
      (RangeSet.contains [(1, 3)] v || RangeSet.contains [(2, 5)] v) :=
  claim_C8_union_comm [(1, 3)] [(2, 5)] (by decide) (by decide)

/-- Claim C9: `from_values`, `add`, `discard`, union and `pop_front` all
preserve the structural invariant (sorted by lo, `lo ≤ hi`, consecutive
intervals separated by a gap of at least one). -/
theorem claim_C9_wf_preservation :
    (∀ values : List ℤ, RangeSet.WF (RangeSet.from_values values)) ∧
    (∀ (R : RangeSet.Ranges) (v : ℤ), RangeSet.WF R →
      RangeSet.WF (RangeSet.add R v)) ∧
    (∀ (R : RangeSet.Ranges) (v : ℤ), RangeSet.WF R →
      RangeSet.WF (RangeSet.discard R v)) ∧
    (∀ A B : RangeSet.Ranges, RangeSet.WF A → RangeSet.WF B →
      RangeSet.WF (RangeSet.union A B)) ∧
    (∀ (R : RangeSet.Ranges) (n : ℕ), RangeSet.WF R →
      RangeSet.WF (RangeSet.pop_front R n).2) :=
  ⟨RangeSet.from_values_wf,
   fun _ v h => RangeSet.add_wf h v,
   fun _ v h => RangeSet.discard_wf h v,
   fun _ _ hA hB => RangeSet.union_wf hA hB,
   fun R n h => RangeSet.popFrontGo_wf R n h⟩

/-- Witness for C9 on concrete sets. -/
theorem claim_C9_witness :
    RangeSet.WF (RangeSet.from_values [3, 1, 2, 7]) ∧
    RangeSet.WF (RangeSet.add [(1, 3), (7, 9)] 5) ∧
    RangeSet.WF (RangeSet.discard [(1, 3), (7, 9)] 2) ∧
    RangeSet.WF (RangeSet.union [(1, 3)] [(5, 6)]) ∧
    RangeSet.WF (RangeSet.pop_front [(1, 3), (7, 9)] 2).2 :=
  ⟨claim_C9_wf_preservation.1 [3, 1, 2, 7],
   claim_C9_wf_preservation.2.1 [(1, 3), (7, 9)] 5 (by decide),
   claim_C9_wf_preservation.2.2.1 [(1, 3), (7, 9)] 2 (by decide),
   claim_C9_wf_preservation.2.2.2.1 [(1, 3)] [(5, 6)] (by decide) (by decide),
   claim_C9_wf_preservation.2.2.2.2 [(1, 3), (7, 9)] 2 (by decide)⟩

/-- Claim C10: a (successful) `save_work_data` for an id already in
`completed` appends exactly one record to `results.jsonl` and changes
nothing else: no `public.txt` write, and `completed`, `private`, `assigned`
and the queue are untouched — in particular the id is NOT discarded from
`assigned`. -/
theorem claim_C10_duplicate_submit (st : SrvState) (work_id : ℤ) (ok2 : Bool)
    (h : work_id ∈ st.completed) :
    (save_work_data st work_id true ok2).1.writes =
      st.writes ++ [FileWrite.res work_id] ∧
    (save_work_data st work_id true ok2).1.completed = st.completed ∧
    (save_work_data st work_id true ok2).1.priv = st.priv ∧
    (save_work_data st work_id true ok2).1.assigned = st.assigned ∧
    (save_work_data st work_id true ok2).1.available_queue =
      st.available_queue ∧
    (save_work_data st work_id true ok2).2 = true := by
  rw [save_dup h]
  exact ⟨rfl, rfl, rfl, rfl, rfl, rfl⟩

/-- Witness for C10 at a concrete duplicate submission. -/
theorem claim_C10_witness :
    (save_work_data ⟨{7}, ∅, {7}, [], 0, []⟩ 7 true true).1.writes =
      (⟨{7}, ∅, {7}, [], 0, []⟩ : SrvState).writes ++ [FileWrite.res 7] ∧
    (save_work_data ⟨{7}, ∅, {7}, [], 0, []⟩ 7 true true).1.completed =
      (⟨{7}, ∅, {7}, [], 0, []⟩ : SrvState).completed ∧
    (save_work_data ⟨{7}, ∅, {7}, [], 0, []⟩ 7 true true).1.priv =
      (⟨{7}, ∅, {7}, [], 0, []⟩ : SrvState).priv ∧
    (save_work_data ⟨{7}, ∅, {7}, [], 0, []⟩ 7 true true).1.assigned =
      (⟨{7}, ∅, {7}, [], 0, []⟩ : SrvState).assigned ∧
    (save_work_data ⟨{7}, ∅, {7}, [], 0, []⟩ 7 true true).1.available_queue =
      (⟨{7}, ∅, {7}, [], 0, []⟩ : SrvState).available_queue ∧
    (save_work_data ⟨{7}, ∅, {7}, [], 0, []⟩ 7 true true).2 = true :=
  claim_C10_duplicate_submit ⟨{7}, ∅, {7}, [], 0, []⟩ 7 true (by decide)
